import Mathlib

/-!
Shallow embedding of the `bitarray` Go package (file `bitarray.go`).

A Go `BitArray` is a struct with an `int` size and a `[]uint8` storage
slice.  We model it as a `size : Nat` together with `data : List Nat`,
where every byte is kept below 256.  Go panics (invalid size, index out
of range, size mismatch, division by zero) and recoverable errors
(unknown character during parsing) are modelled with an explicit error
type returned through `Except`.  Go's `int` arguments are modelled as
`Int`; Go's truncated remainder `%` is `Int.tmod`.
-/

/-- Errors of the Go code.  The first four model Go panics, the last one
models the recoverable `error` value returned by `Parse`. -/
inductive Err where
  | invalidSize
  | indexOOR
  | sizeMismatch
  | divByZero
  | unknownChar (c : Char)
deriving DecidableEq

/-- Number of bits per storage byte (the Go constant `bitsN = 8`). -/
def bitsN : Nat := 8

/-- The BitArray struct: logical size plus packed byte storage. -/
structure BitArray where
  size : Nat
  data : List Nat
deriving DecidableEq

/-- Number of storage bytes allocated by `New`: `n := size/8`, one more
when `size%8 > 0`. -/
def numBytes (size : Nat) : Nat :=
  size / bitsN + (if size % bitsN > 0 then 1 else 0)

/-- Reads storage byte `n` (out-of-range reads give 0; the Go code only
indexes in range). -/
def BitArray.byteAt (ba : BitArray) (n : Nat) : Nat :=
  ba.data.getD n 0

/-- The private Go `get`: `ba.data[idx/8] & (1 << idx%8) != 0`. -/
def BitArray.get (ba : BitArray) (idx : Nat) : Bool :=
  ba.byteAt (idx / bitsN) &&& (1 <<< (idx % bitsN)) != 0

/-- The private Go `set`: `ba.data[idx/8] |= 1 << idx%8`. -/
def BitArray.set (ba : BitArray) (idx : Nat) : BitArray :=
  ⟨ba.size, ba.data.set (idx / bitsN) (ba.byteAt (idx / bitsN) ||| (1 <<< (idx % bitsN)))⟩

/-- The private Go `unset`: `ba.data[idx/8] &^= 1 << idx%8`; on a `uint8`
the operator `&^ m` is bitwise AND with `0xFF ^ m`. -/
def BitArray.unset (ba : BitArray) (idx : Nat) : BitArray :=
  ⟨ba.size, ba.data.set (idx / bitsN) (ba.byteAt (idx / bitsN) &&& (255 ^^^ (1 <<< (idx % bitsN))))⟩

/-- The ubiquitous Go pattern `if cond { ba.set(i) } else { ba.unset(i) }`. -/
def BitArray.writeBit (ba : BitArray) (idx : Nat) (v : Bool) : BitArray :=
  if v then ba.set idx else ba.unset idx

/-- Go `checkIdx`: panics when `idx < 0 || idx >= ba.size`. -/
def BitArray.checkIdx (ba : BitArray) (idx : Int) : Except Err Unit :=
  if idx < 0 ∨ (ba.size : Int) ≤ idx then .error .indexOOR else .ok ()

/-- Go `checkSize`: panics when the sizes differ. -/
def BitArray.checkSize (ba other : BitArray) : Except Err Unit :=
  if ba.size ≠ other.size then .error .sizeMismatch else .ok ()

/-- The checked public Go `Set`. -/
def BitArray.Set (ba : BitArray) (idx : Int) : Except Err BitArray :=
  match ba.checkIdx idx with
  | .error e => .error e
  | .ok _ => .ok (ba.set idx.toNat)

/-- The checked public Go `Unset`. -/
def BitArray.Unset (ba : BitArray) (idx : Int) : Except Err BitArray :=
  match ba.checkIdx idx with
  | .error e => .error e
  | .ok _ => .ok (ba.unset idx.toNat)

/-- The checked public Go `Get`. -/
def BitArray.Get (ba : BitArray) (idx : Int) : Except Err Bool :=
  match ba.checkIdx idx with
  | .error e => .error e
  | .ok _ => .ok (ba.get idx.toNat)

/-- The `for _, i := range idx { ba.Set(i) }` loop in `New`. -/
def newLoop (ba : BitArray) : List Int → Except Err BitArray
  | [] => .ok ba
  | i :: is =>
    match ba.Set i with
    | .error e => .error e
    | .ok b2 => newLoop b2 is

/-- Go `New`: panics when `size <= 0`, allocates `numBytes size` zero
bytes, then sets the given indexes through the checked `Set`. -/
def New (size : Int) (idx : List Int) : Except Err BitArray :=
  if size ≤ 0 then .error .invalidSize
  else newLoop ⟨size.toNat, List.replicate (numBytes size.toNat) 0⟩ idx

/-- The character loop of Go `Parse`: index `i` walks the rune slice,
a `'1'` sets bit `rsLen - 1 - i`, a character other than `'0'` and `'1'`
yields the recoverable error. -/
def parseLoop (rsLen : Nat) : List Char → Nat → BitArray → Except Err BitArray
  | [], _, ba => .ok ba
  | c :: cs, i, ba =>
    if c = '1' then parseLoop rsLen cs (i + 1) (ba.set (rsLen - 1 - i))
    else if c ≠ '0' then .error (.unknownChar c)
    else parseLoop rsLen cs (i + 1) ba

/-- Body of Go `Parse` after spaces have been removed. -/
def parseGo (rs : List Char) : Except Err BitArray :=
  match New (rs.length : Int) [] with
  | .error e => .error e
  | .ok ba => parseLoop rs.length rs 0 ba

/-- Go `Parse`: removes space characters, allocates via `New` with the
remaining length, then processes each character. -/
def Parse (s : List Char) : Except Err BitArray :=
  parseGo (s.filter (fun c => c != Char.ofNat 32))

/-- Go `Clone`: a deep copy; with value semantics this is the identity
on the modelled state. -/
def Clone (ba : BitArray) : BitArray :=
  ⟨ba.size, ba.data⟩

/-- Go `Clear`: the loop sets every storage byte to 0. -/
def BitArray.Clear (ba : BitArray) : BitArray :=
  ⟨ba.size, ba.data.map (fun _ => 0)⟩

/-- Go `SetAll`: the final byte becomes `0xFF` when `size%8 == 0` and
`(2 << (size%8 - 1)) - 1` otherwise; every other byte becomes `0xFF`. -/
def BitArray.SetAll (ba : BitArray) : BitArray :=
  ⟨ba.size, (List.range ba.data.length).map (fun i =>
    if i + 1 = ba.data.length then
      (if ba.size % bitsN = 0 then 255 else (2 <<< (ba.size % bitsN - 1)) - 1)
    else 255)⟩

/-- A `for i := s; i < s+k; i++ { ba = f(ba, i) }` loop. -/
def upLoop (f : BitArray → Nat → BitArray) : Nat → Nat → BitArray → BitArray
  | _, 0, ba => ba
  | s, k + 1, ba => upLoop f (s + 1) k (f ba s)

/-- The `for i := 0; i < len(ba.data)-1; i++ { ba.data[i] = f(...) }`
loop shared by the bitwise operators: combines all bytes except the
last one. -/
def combineFull (f : Nat → Nat → Nat) (d1 d2 : List Nat) : List Nat :=
  (List.range d1.length).map (fun i =>
    if i + 1 < d1.length then f (d1.getD i 0) (d2.getD i 0) else d1.getD i 0)

/-- The `i := len(ba.data)-1; ba.data[i] = f(ba.data[i], other.data[i])`
step used when `size%8 == 0`. -/
def combineLast (f : Nat → Nat → Nat) (d1 d2 : List Nat) : List Nat :=
  d1.set (d1.length - 1) (f (d1.getD (d1.length - 1) 0) (d2.getD (d1.length - 1) 0))

/-- One step of the final-byte loop of Go `And`:
`if !other.get(i) { ba.unset(i) }`. -/
def andStep (other : BitArray) (b : BitArray) (i : Nat) : BitArray :=
  if other.get i then b else b.unset i

/-- Unchecked body of Go `And`. -/
def andCore (ba other : BitArray) : BitArray :=
  let d : List Nat := combineFull (fun a b => a &&& b) ba.data other.data
  if ba.size % bitsN = 0 then
    ⟨ba.size, combineLast (fun a b => a &&& b) d other.data⟩
  else
    upLoop (andStep other)
      (ba.size / bitsN * bitsN) (ba.size - ba.size / bitsN * bitsN) ⟨ba.size, d⟩

/-- Go `And`: checks the sizes, then `ba &= other`. -/
def BitArray.And (ba other : BitArray) : Except Err BitArray :=
  match ba.checkSize other with
  | .error e => .error e
  | .ok _ => .ok (andCore ba other)

/-- One step of the final-byte loop of Go `Or`:
`if other.get(i) { ba.set(i) }`. -/
def orStep (other : BitArray) (b : BitArray) (i : Nat) : BitArray :=
  if other.get i then b.set i else b

/-- Unchecked body of Go `Or`. -/
def orCore (ba other : BitArray) : BitArray :=
  let d : List Nat := combineFull (fun a b => a ||| b) ba.data other.data
  if ba.size % bitsN = 0 then
    ⟨ba.size, combineLast (fun a b => a ||| b) d other.data⟩
  else
    upLoop (orStep other)
      (ba.size / bitsN * bitsN) (ba.size - ba.size / bitsN * bitsN) ⟨ba.size, d⟩

/-- Go `Or`: checks the sizes, then `ba |= other`. -/
def BitArray.Or (ba other : BitArray) : Except Err BitArray :=
  match ba.checkSize other with
  | .error e => .error e
  | .ok _ => .ok (orCore ba other)

/-- One step of the final-byte loop of Go `Xor`. -/
def xorStep (other : BitArray) (b : BitArray) (i : Nat) : BitArray :=
  let b1 := b.get i
  let b2 := other.get i
  let x := (b1 || b2) && !(b1 && b2)
  if x && !b1 then b.set i
  else if !x && b1 then b.unset i
  else b

/-- Unchecked body of Go `Xor`. -/
def xorCore (ba other : BitArray) : BitArray :=
  let d : List Nat := combineFull (fun a b => a ^^^ b) ba.data other.data
  if ba.size % bitsN = 0 then
    ⟨ba.size, combineLast (fun a b => a ^^^ b) d other.data⟩
  else
    upLoop (xorStep other)
      (ba.size / bitsN * bitsN) (ba.size - ba.size / bitsN * bitsN) ⟨ba.size, d⟩

/-- Go `Xor`: checks the sizes, then `ba ^= other`. -/
def BitArray.Xor (ba other : BitArray) : Except Err BitArray :=
  match ba.checkSize other with
  | .error e => .error e
  | .ok _ => .ok (xorCore ba other)

/-- On `uint8`, Go `x &^ y` is `x & (0xFF ^ y)`. -/
def andNotByte (a b : Nat) : Nat :=
  a &&& (255 ^^^ b)

/-- One step of the final-byte loop of Go `AndNot`:
`if ba.get(i) && other.get(i) { ba.unset(i) }`. -/
def andNotStep (other : BitArray) (b : BitArray) (i : Nat) : BitArray :=
  if b.get i && other.get i then b.unset i else b

/-- Unchecked body of Go `AndNot`. -/
def andNotCore (ba other : BitArray) : BitArray :=
  let d : List Nat := combineFull andNotByte ba.data other.data
  if ba.size % bitsN = 0 then
    ⟨ba.size, combineLast andNotByte d other.data⟩
  else
    upLoop (andNotStep other)
      (ba.size / bitsN * bitsN) (ba.size - ba.size / bitsN * bitsN) ⟨ba.size, d⟩

/-- Go `AndNot`: checks the sizes, then `ba &^= other`. -/
def BitArray.AndNot (ba other : BitArray) : Except Err BitArray :=
  match ba.checkSize other with
  | .error e => .error e
  | .ok _ => .ok (andNotCore ba other)

/-- On `uint8`, Go `^x` is `x ^ 0xFF` (the second argument is ignored;
it only fits the shape of the shared byte loop). -/
def notByte (a : Nat) (_b : Nat) : Nat :=
  a ^^^ 255

/-- One step of the final-byte loop of Go `Not`:
`if ba.get(i) { ba.unset(i) } else { ba.set(i) }`. -/
def notStep (b : BitArray) (i : Nat) : BitArray :=
  if b.get i then b.unset i else b.set i

/-- Go `Not`: complements all full bytes; the final byte is complemented
wholesale when `size%8 == 0` and bit-by-bit below `size` otherwise. -/
def BitArray.Not (ba : BitArray) : BitArray :=
  let d : List Nat := combineFull notByte ba.data ba.data
  if ba.size % bitsN = 0 then
    ⟨ba.size, combineLast notByte d ba.data⟩
  else
    upLoop notStep
      (ba.size / bitsN * bitsN) (ba.size - ba.size / bitsN * bitsN) ⟨ba.size, d⟩

/-- The descending branch of Go `moveBits` (`n > 0`): for
`i := size-1; i >= n; i--` write bit `i` from bit `i-n`.  With fuel
`k+1` the current index is `n + k`. -/
def movePosAux (n : Nat) : Nat → BitArray → BitArray
  | 0, ba => ba
  | k + 1, ba => movePosAux n k (ba.writeBit (n + k) (ba.get k))

/-- The ascending branch of Go `moveBits` (`n < 0`, here `n = |n|`): for
`i := 0; i < size-n; i++` write bit `i` from bit `i+n`. -/
def moveNegAux (n : Nat) : Nat → Nat → BitArray → BitArray
  | _, 0, ba => ba
  | i, k + 1, ba => moveNegAux n (i + 1) k (ba.writeBit i (ba.get (i + n)))

/-- Go `moveBits`: shifts the bits and returns the half-open range
`[start, end)` of positions the caller still has to overwrite. -/
def BitArray.moveBits (ba : BitArray) (n : Int) : BitArray × Nat × Nat :=
  if n = 0 then (ba, 0, 0)
  else if n > 0 then (movePosAux n.toNat (ba.size - n.toNat) ba, 0, n.toNat)
  else ((moveNegAux (-n).toNat 0 (ba.size - (-n).toNat) ba, ba.size - (-n).toNat, ba.size))

/-- One step of the copy loop of Go `Slice`:
`if ba.get(i) { result.set(idx) }` with `idx = i - start`. -/
def sliceStep (ba : BitArray) (start : Nat) (b : BitArray) (i : Nat) : BitArray :=
  if ba.get i then b.set (i - start) else b

/-- Go `Slice`: checks `start` and `end-1` as indexes, allocates a new
array of size `end-start` via `New` (which panics when the difference
is not positive), then copies bit `start+k` of `ba` to bit `k`. -/
def Slice (ba : BitArray) (start nd : Int) : Except Err BitArray :=
  match ba.checkIdx start with
  | .error e => .error e
  | .ok _ =>
    match ba.checkIdx (nd - 1) with
    | .error e => .error e
    | .ok _ =>
      match New (nd - start) [] with
      | .error e => .error e
      | .ok result =>
        .ok (upLoop (sliceStep ba start.toNat)
          start.toNat (nd.toNat - start.toNat) result)

/-- One step of the reinsertion loop of Go `Rotate`. -/
def rotStep (aux : BitArray) (s : Nat) (b : BitArray) (i : Nat) : BitArray :=
  b.writeBit i (aux.get (i - s))

/-- The final loop of Go `Rotate`: reinserts the saved bits `aux` at
positions `[start, end)`. -/
def rotFinish (ba aux : BitArray) (r : Int) : BitArray :=
  match ba.moveBits r with
  | (b2, s, e) => upLoop (rotStep aux s) s (e - s) b2

/-- Go `Rotate`: reduces `n` with the language-native truncated
remainder, saves the bits that fall off with `Slice`, shifts with
`moveBits`, and reinserts the saved bits at the opposite end.  A size of
0 would make `n % ba.size` panic; it is unreachable for constructed
arrays. -/
def BitArray.Rotate (ba : BitArray) (n : Int) : Except Err BitArray :=
  if (ba.size : Int) = 0 then .error .divByZero
  else
    let r := n.tmod (ba.size : Int)
    if r > 0 then
      match Slice ba ((ba.size : Int) - r) (ba.size : Int) with
      | .error e => .error e
      | .ok aux => .ok (rotFinish ba aux r)
    else if r < 0 then
      match Slice ba 0 (-r) with
      | .error e => .error e
      | .ok aux => .ok (rotFinish ba aux r)
    else .ok ba

/-- One step of the vacated-range loop of Go `Shift`: `ba.unset(i)`. -/
def shiftStep (b : BitArray) (i : Nat) : BitArray :=
  b.unset i

/-- Go `Shift`: clears everything when `|n| >= size`, otherwise shifts
with `moveBits` and zeroes the vacated range `[start, end)`. -/
def BitArray.Shift (ba : BitArray) (n : Int) : BitArray :=
  if (0 < n ∧ (ba.size : Int) ≤ n) ∨ (n < 0 ∧ (ba.size : Int) ≤ -n) then ba.Clear
  else
    match ba.moveBits n with
    | (b2, s, e) => upLoop shiftStep s (e - s) b2

/-- One step of the partial-byte copy loop of Go `Concat`:
`if ba2.get(i) { ba.set(i) }`. -/
def concatStep2 (ba2 : BitArray) (b : BitArray) (i : Nat) : BitArray :=
  if ba2.get i then b.set i else b

/-- One step of the high-part copy loop of Go `Concat`:
`if ba1.get(i2) { ba.set(i) }` with `i2 = i - ba2.size`. -/
def concatStep1 (ba1 : BitArray) (off : Nat) (b : BitArray) (i : Nat) : BitArray :=
  if ba1.get (i - off) then b.set i else b

/-- Go `Concat`: allocates `New(ba1.size + ba2.size)`, copies the full
bytes of `ba2`, then the remaining bits of `ba2`, then all bits of
`ba1` above `ba2.size`. -/
def Concat (ba1 ba2 : BitArray) : Except Err BitArray :=
  match New ((ba1.size : Int) + (ba2.size : Int)) [] with
  | .error e => .error e
  | .ok ba0 =>
    let n := ba2.size / bitsN
    let d : List Nat := (List.range ba0.data.length).map (fun i =>
      if i < n then ba2.data.getD i 0 else ba0.data.getD i 0)
    let bb := upLoop (concatStep2 ba2)
      (n * bitsN) (ba2.size - n * bitsN) ⟨ba0.size, d⟩
    .ok (upLoop (concatStep1 ba1 ba2.size)
      ba2.size (ba0.size - ba2.size) bb)

/-- Model of the Go standard library `bits.OnesCount8`: the number of
set bits among positions `0..7` of a byte. -/
def onesCount8 (b : Nat) : Nat :=
  (List.range bitsN).countP (fun i => b.testBit i)

/-- Go `Count`: sums the popcounts of all storage bytes. -/
def BitArray.Count (ba : BitArray) : Nat :=
  (ba.data.map onesCount8).sum

/-- Minimal binary digits of a natural number, least significant first
(empty for 0). -/
def minBinAux (b : Nat) : List Char :=
  if h : b = 0 then []
  else (if b % 2 = 1 then '1' else '0') :: minBinAux (b / 2)
decreasing_by exact Nat.div_lt_self (Nat.pos_of_ne_zero h) (by decide)

/-- Model of Go `fmt.Sprintf` with verb `%0*b`: the binary digits of
`b`, most significant first (`"0"` for 0), left-padded with zeros to a
minimum width `w`. -/
def binFmt (w b : Nat) : List Char :=
  let ds := if b = 0 then ['0'] else (minBinAux b).reverse
  List.replicate (w - ds.length) '0' ++ ds

/-- Go `String`: prints the final byte with width `size%8` (8 when the
size is a multiple of 8), then every lower byte with width 8, highest
byte first.  Strings are modelled as lists of characters. -/
def BitArray.String (ba : BitArray) : List Char :=
  binFmt (if ba.size % bitsN = 0 then bitsN else ba.size % bitsN)
      (ba.data.getD (ba.data.length - 1) 0)
    ++ ((List.range (ba.data.length - 1)).reverse.map
      (fun i => binFmt bitsN (ba.data.getD i 0))).flatten

/-- Decoding error of `UnmarshalBinary`; the Go code returns the error
produced by `encoding/gob` on truncated or malformed input. -/
inductive DecErr where
  | truncated
deriving DecidableEq

/-- Modelled from the spec: the Go code delegates to `encoding/gob`
(standard library, not part of this repository), described by the spec
as a deterministic length-prefixed encoding carrying `size` followed by
the raw packed byte sequence.  Here a natural number is encoded in
self-delimiting unary: `n` nonzero marks followed by a 0 terminator. -/
def marshalNat (n : Nat) : List Nat :=
  List.replicate n 1 ++ [0]

/-- Modelled from the spec: `MarshalBinary` encodes `size`, then the
storage length, then the raw storage bytes. -/
def MarshalBinary (ba : BitArray) : List Nat :=
  marshalNat ba.size ++ marshalNat ba.data.length ++ ba.data

/-- Decodes one self-delimiting number; fails on truncated input. -/
def decodeNatAux : List Nat → Except DecErr (Nat × List Nat)
  | [] => .error .truncated
  | b :: rest =>
    if b = 0 then .ok (0, rest)
    else
      match decodeNatAux rest with
      | .error e => .error e
      | .ok (n, l) => .ok (n + 1, l)

/-- Reads exactly `n` raw bytes; fails on truncated input. -/
def takeN : Nat → List Nat → Except DecErr (List Nat × List Nat)
  | 0, l => .ok ([], l)
  | _ + 1, [] => .error .truncated
  | k + 1, b :: l =>
    match takeN k l with
    | .error e => .error e
    | .ok (xs, rest) => .ok (b :: xs, rest)

/-- Third stage of decoding: reads the raw storage bytes. -/
def unmarshalStage3 (sz dl : Nat) (l2 : List Nat) : Except DecErr BitArray :=
  match takeN dl l2 with
  | .error e => .error e
  | .ok (d, _) => .ok ⟨sz, d⟩

/-- Second stage of decoding: reads the storage length. -/
def unmarshalStage2 (sz : Nat) (l1 : List Nat) : Except DecErr BitArray :=
  match decodeNatAux l1 with
  | .error e => .error e
  | .ok (dl, l2) => unmarshalStage3 sz dl l2

/-- Modelled from the spec: `UnmarshalBinary` decodes the size, the
storage length, and the storage bytes, failing with a decode error on
truncated input. -/
def UnmarshalBinary (bs : List Nat) : Except DecErr BitArray :=
  match decodeNatAux bs with
  | .error e => .error e
  | .ok (sz, l1) => unmarshalStage2 sz l1

/-- Structural well-formedness of a BitArray: positive size, the storage
length allocated by `New`, and every storage byte an actual `uint8`
value. -/
def Valid (ba : BitArray) : Prop :=
  0 < ba.size ∧ ba.data.length = numBytes ba.size ∧ ∀ b ∈ ba.data, b < 256

/-- The padding invariant: every storage bit at a position at or above
`size` reads as 0. -/
def PadOk (ba : BitArray) : Prop :=
  ∀ j, j < bitsN * ba.data.length → ba.size ≤ j → ba.get j = false

instance : DecidablePred Valid := fun ba => by
  unfold Valid
  infer_instance

instance : DecidablePred PadOk := fun ba => by
  unfold PadOk
  infer_instance

/-- The BitArrays reachable through the public constructors and the
public mutating operations of the package. -/
inductive Reachable : BitArray → Prop where
  | ofNew (sz : Int) (idxs : List Int) (ba : BitArray) :
      New sz idxs = .ok ba → Reachable ba
  | ofParse (s : List Char) (ba : BitArray) :
      Parse s = .ok ba → Reachable ba
  | ofClone (ba : BitArray) : Reachable ba → Reachable (Clone ba)
  | ofSlice (ba : BitArray) (st nd : Int) (r : BitArray) :
      Reachable ba → Slice ba st nd = .ok r → Reachable r
  | ofConcat (a b : BitArray) (r : BitArray) :
      Reachable a → Reachable b → Concat a b = .ok r → Reachable r
  | ofSet (ba : BitArray) (i : Int) (r : BitArray) :
      Reachable ba → BitArray.Set ba i = .ok r → Reachable r
  | ofUnset (ba : BitArray) (i : Int) (r : BitArray) :
      Reachable ba → BitArray.Unset ba i = .ok r → Reachable r
  | ofClear (ba : BitArray) : Reachable ba → Reachable ba.Clear
  | ofSetAll (ba : BitArray) : Reachable ba → Reachable ba.SetAll
  | ofAnd (ba other : BitArray) (r : BitArray) :
      Reachable ba → Reachable other → BitArray.And ba other = .ok r → Reachable r
  | ofOr (ba other : BitArray) (r : BitArray) :
      Reachable ba → Reachable other → BitArray.Or ba other = .ok r → Reachable r
  | ofXor (ba other : BitArray) (r : BitArray) :
      Reachable ba → Reachable other → BitArray.Xor ba other = .ok r → Reachable r
  | ofAndNot (ba other : BitArray) (r : BitArray) :
      Reachable ba → Reachable other → BitArray.AndNot ba other = .ok r → Reachable r
  | ofNot (ba : BitArray) : Reachable ba → Reachable ba.Not
  | ofRotate (ba : BitArray) (n : Int) (r : BitArray) :
      Reachable ba → BitArray.Rotate ba n = .ok r → Reachable r
  | ofShift (ba : BitArray) (n : Int) : Reachable ba → Reachable (ba.Shift n)

theorem get_eq_testBit (ba : BitArray) (j : Nat) :
    ba.get j = (ba.byteAt (j / bitsN)).testBit (j % bitsN) := by
  unfold BitArray.get
  rw [Nat.shiftLeft_eq, one_mul, Nat.and_two_pow]
  cases h : (ba.byteAt (j / bitsN)).testBit (j % bitsN) <;>
    simp [h, Nat.pos_iff_ne_zero, Nat.pos_pow_of_pos]

theorem getD_set_self (l : List Nat) (n v : Nat) (h : n < l.length) :
    (l.set n v).getD n 0 = v := by
  rw [List.getD_eq_getElem?_getD, List.getElem?_set_self h]
  rfl

theorem getD_set_ne (l : List Nat) (n m v : Nat) (h : n ≠ m) :
    (l.set n v).getD m 0 = l.getD m 0 := by
  rw [List.getD_eq_getElem?_getD, List.getElem?_set_ne h, ← List.getD_eq_getElem?_getD]

theorem mod_ne_of_div_eq_of_ne {i j : Nat} (h : j ≠ i) (hd : j / bitsN = i / bitsN) :
    j % bitsN ≠ i % bitsN := by
  simp only [bitsN] at hd ⊢
  omega

theorem byteAt_lt (ba : BitArray) (hb : ∀ b ∈ ba.data, b < 256) (n : Nat) :
    ba.byteAt n < 256 := by
  unfold BitArray.byteAt
  rw [List.getD_eq_getElem?_getD]
  cases hx : ba.data[n]? with
  | none => simp
  | some v => simpa using hb v (List.getElem?_mem hx)

theorem size_set (ba : BitArray) (i : Nat) : (ba.set i).size = ba.size := rfl

theorem size_unset (ba : BitArray) (i : Nat) : (ba.unset i).size = ba.size := rfl

theorem data_length_set (ba : BitArray) (i : Nat) :
    (ba.set i).data.length = ba.data.length := by
  simp [BitArray.set]

theorem data_length_unset (ba : BitArray) (i : Nat) :
    (ba.unset i).data.length = ba.data.length := by
  simp [BitArray.unset]

theorem get_set_self (ba : BitArray) (i : Nat) (h : i < bitsN * ba.data.length) :
    (ba.set i).get i = true := by
  have hdiv : i / bitsN < ba.data.length := by
    simp only [bitsN] at h ⊢
    omega
  rw [get_eq_testBit]
  show ((ba.data.set (i / bitsN) _).getD (i / bitsN) 0).testBit (i % bitsN) = true
  rw [getD_set_self _ _ _ hdiv, Nat.shiftLeft_eq, one_mul, Nat.testBit_or,
    Nat.testBit_two_pow_self]
  simp

theorem get_set_ne (ba : BitArray) (i j : Nat) (h : j ≠ i) :
    (ba.set i).get j = ba.get j := by
  rw [get_eq_testBit, get_eq_testBit]
  show ((ba.data.set (i / bitsN) _).getD (j / bitsN) 0).testBit (j % bitsN) = _
  by_cases hd : i / bitsN = j / bitsN
  · rw [← hd]
    by_cases hlen : i / bitsN < ba.data.length
    · rw [getD_set_self _ _ _ hlen, Nat.shiftLeft_eq, one_mul, Nat.testBit_or,
        Nat.testBit_two_pow_of_ne (mod_ne_of_div_eq_of_ne h (hd.symm)).symm]
      simp [BitArray.byteAt]
    · rw [List.getD_eq_getElem?_getD, List.getElem?_set, if_pos rfl, if_neg hlen]
      unfold BitArray.byteAt
      rw [List.getD_eq_getElem?_getD, List.getElem?_eq_none (le_of_not_lt hlen)]
  · rw [getD_set_ne _ _ _ _ hd]
    rfl

theorem get_unset_self (ba : BitArray) (i : Nat) :
    (ba.unset i).get i = false := by
  rw [get_eq_testBit]
  show ((ba.data.set (i / bitsN) _).getD (i / bitsN) 0).testBit (i % bitsN) = false
  by_cases hlen : i / bitsN < ba.data.length
  · rw [getD_set_self _ _ _ hlen, Nat.shiftLeft_eq, one_mul, Nat.testBit_and,
      Nat.testBit_xor]
    have h255 : (255 : Nat) = 2 ^ 8 - 1 := by decide
    rw [h255, Nat.testBit_two_pow_sub_one, Nat.testBit_two_pow_self]
    have hm : i % bitsN < 8 := by
      simp only [bitsN]
      omega
    simp [hm]
  · rw [List.getD_eq_getElem?_getD, List.getElem?_set, if_pos rfl, if_neg hlen]
    exact Nat.zero_testBit _

theorem get_unset_ne (ba : BitArray) (i j : Nat) (h : j ≠ i) :
    (ba.unset i).get j = ba.get j := by
  rw [get_eq_testBit, get_eq_testBit]
  show ((ba.data.set (i / bitsN) _).getD (j / bitsN) 0).testBit (j % bitsN) = _
  by_cases hd : i / bitsN = j / bitsN
  · rw [← hd]
    by_cases hlen : i / bitsN < ba.data.length
    · rw [getD_set_self _ _ _ hlen, Nat.shiftLeft_eq, one_mul, Nat.testBit_and,
        Nat.testBit_xor]
      have h255 : (255 : Nat) = 2 ^ 8 - 1 := by decide
      rw [h255, Nat.testBit_two_pow_sub_one,
        Nat.testBit_two_pow_of_ne (mod_ne_of_div_eq_of_ne h (hd.symm)).symm]
      have hm : j % bitsN < 8 := by
        simp only [bitsN]
        omega
      simp [hm, BitArray.byteAt]
    · rw [List.getD_eq_getElem?_getD, List.getElem?_set, if_pos rfl, if_neg hlen]
      unfold BitArray.byteAt
      rw [List.getD_eq_getElem?_getD, List.getElem?_eq_none (le_of_not_lt hlen)]
  · rw [getD_set_ne _ _ _ _ hd]
    rfl

theorem size_writeBit (ba : BitArray) (i : Nat) (v : Bool) :
    (ba.writeBit i v).size = ba.size := by
  unfold BitArray.writeBit
  split <;> rfl

theorem data_length_writeBit (ba : BitArray) (i : Nat) (v : Bool) :
    (ba.writeBit i v).data.length = ba.data.length := by
  unfold BitArray.writeBit
  split
  · exact data_length_set ba i
  · exact data_length_unset ba i

theorem get_writeBit_self (ba : BitArray) (i : Nat) (v : Bool)
    (h : i < bitsN * ba.data.length) : (ba.writeBit i v).get i = v := by
  unfold BitArray.writeBit
  cases v
  · rw [if_neg (by simp)]
    exact get_unset_self ba i
  · rw [if_pos rfl]
    exact get_set_self ba i h

theorem get_writeBit_ne (ba : BitArray) (i j : Nat) (v : Bool) (h : j ≠ i) :
    (ba.writeBit i v).get j = ba.get j := by
  unfold BitArray.writeBit
  split
  · exact get_set_ne ba i j h
  · exact get_unset_ne ba i j h

theorem bytes_set (ba : BitArray) (i : Nat) (hb : ∀ b ∈ ba.data, b < 256) :
    ∀ b ∈ (ba.set i).data, b < 256 := by
  intro b hmem
  rcases List.mem_or_eq_of_mem_set hmem with hc | hc
  · exact hb b hc
  · subst hc
    have hbyte := byteAt_lt ba hb (i / bitsN)
    have h2 : (256 : Nat) = 2 ^ 8 := by decide
    rw [h2]
    refine Nat.or_lt_two_pow (h2 ▸ hbyte) ?_
    rw [Nat.shiftLeft_eq, one_mul]
    exact Nat.pow_lt_pow_right (by decide) (by simp only [bitsN]; omega)

theorem bytes_unset (ba : BitArray) (i : Nat) (hb : ∀ b ∈ ba.data, b < 256) :
    ∀ b ∈ (ba.unset i).data, b < 256 := by
  intro b hmem
  rcases List.mem_or_eq_of_mem_set hmem with hc | hc
  · exact hb b hc
  · subst hc
    calc ba.byteAt (i / bitsN) &&& _ ≤ ba.byteAt (i / bitsN) := Nat.and_le_left
      _ < 256 := byteAt_lt ba hb (i / bitsN)

theorem bytes_writeBit (ba : BitArray) (i : Nat) (v : Bool)
    (hb : ∀ b ∈ ba.data, b < 256) : ∀ b ∈ (ba.writeBit i v).data, b < 256 := by
  unfold BitArray.writeBit
  split
  · exact bytes_set ba i hb
  · exact bytes_unset ba i hb

theorem valid_size_le (ba : BitArray) (hv : Valid ba) :
    ba.size ≤ bitsN * ba.data.length := by
  obtain ⟨-, hlen, -⟩ := hv
  rw [hlen]
  unfold numBytes
  simp only [bitsN]
  split <;> omega

theorem valid_8len_lt (ba : BitArray) (hv : Valid ba) :
    bitsN * ba.data.length ≤ ba.size + bitsN - 1 := by
  obtain ⟨hpos, hlen, -⟩ := hv
  rw [hlen]
  unfold numBytes
  simp only [bitsN]
  split <;> omega

theorem upLoop_size (f : BitArray → Nat → BitArray)
    (h : ∀ b i, (f b i).size = b.size) (s k : Nat) (ba : BitArray) :
    (upLoop f s k ba).size = ba.size := by
  induction k generalizing s ba with
  | zero => rfl
  | succ k ih => rw [upLoop, ih, h]

theorem upLoop_data_length (f : BitArray → Nat → BitArray)
    (h : ∀ b i, (f b i).data.length = b.data.length) (s k : Nat) (ba : BitArray) :
    (upLoop f s k ba).data.length = ba.data.length := by
  induction k generalizing s ba with
  | zero => rfl
  | succ k ih => rw [upLoop, ih, h]

theorem upLoop_bytes (f : BitArray → Nat → BitArray)
    (h : ∀ b i, (∀ x ∈ b.data, x < 256) → ∀ x ∈ (f b i).data, x < 256)
    (s k : Nat) (ba : BitArray) (hb : ∀ x ∈ ba.data, x < 256) :
    ∀ x ∈ (upLoop f s k ba).data, x < 256 := by
  induction k generalizing s ba with
  | zero => exact hb
  | succ k ih => exact ih (s + 1) (f ba s) (h ba s hb)

theorem upLoop_get (f : BitArray → Nat → BitArray) (g : Bool → Nat → Bool)
    (hkeep : ∀ b i j, j ≠ i → (f b i).get j = b.get j)
    (hlen : ∀ b i, (f b i).data.length = b.data.length)
    (hself : ∀ b i, i < bitsN * b.data.length → (f b i).get i = g (b.get i) i)
    (s k : Nat) (ba : BitArray) (hk : s + k ≤ bitsN * ba.data.length) (j : Nat) :
    (upLoop f s k ba).get j =
      if s ≤ j ∧ j < s + k then g (ba.get j) j else ba.get j := by
  induction k generalizing s ba with
  | zero => rw [show upLoop f s 0 ba = ba from rfl, if_neg (by omega)]
  | succ k ih =>
    show (upLoop f (s + 1) k (f ba s)).get j = _
    rw [ih (s + 1) (f ba s) (by rw [hlen]; omega)]
    by_cases hj : j = s
    · subst hj
      rw [if_neg (by omega), hself ba j (by omega), if_pos (by omega)]
    · rw [hkeep ba s j hj]
      by_cases hin : s + 1 ≤ j ∧ j < s + 1 + k
      · rw [if_pos hin, if_pos (by omega)]
      · rw [if_neg hin, if_neg (by omega)]

theorem movePosAux_size (n k : Nat) (ba : BitArray) :
    (movePosAux n k ba).size = ba.size := by
  induction k generalizing ba with
  | zero => rfl
  | succ k ih => rw [movePosAux, ih, size_writeBit]

theorem movePosAux_data_length (n k : Nat) (ba : BitArray) :
    (movePosAux n k ba).data.length = ba.data.length := by
  induction k generalizing ba with
  | zero => rfl
  | succ k ih => rw [movePosAux, ih, data_length_writeBit]

theorem movePosAux_bytes (n k : Nat) (ba : BitArray) (hb : ∀ x ∈ ba.data, x < 256) :
    ∀ x ∈ (movePosAux n k ba).data, x < 256 := by
  induction k generalizing ba with
  | zero => exact hb
  | succ k ih => exact ih _ (bytes_writeBit _ _ _ hb)

theorem movePosAux_get (n k : Nat) (ba : BitArray)
    (hk : n + k ≤ bitsN * ba.data.length) (j : Nat) :
    (movePosAux n k ba).get j =
      if n ≤ j ∧ j < n + k then ba.get (j - n) else ba.get j := by
  induction k generalizing ba with
  | zero => rw [show movePosAux n 0 ba = ba from rfl, if_neg (by omega)]
  | succ k ih =>
    show (movePosAux n k (ba.writeBit (n + k) (ba.get k))).get j = _
    rw [ih (ba.writeBit (n + k) (ba.get k)) (by rw [data_length_writeBit]; omega)]
    by_cases hj : j = n + k
    · subst hj
      rw [if_neg (by omega), get_writeBit_self ba (n + k) _ (by omega),
        if_pos (by omega)]
      congr 1
      omega
    · by_cases hin : n ≤ j ∧ j < n + k
      · rw [if_pos hin, if_pos (by omega), get_writeBit_ne ba (n + k) (j - n) _ (by omega)]
      · rw [if_neg hin, if_neg (by omega), get_writeBit_ne ba (n + k) j _ hj]

theorem moveNegAux_size (n i k : Nat) (ba : BitArray) :
    (moveNegAux n i k ba).size = ba.size := by
  induction k generalizing i ba with
  | zero => rfl
  | succ k ih => rw [moveNegAux, ih, size_writeBit]

theorem moveNegAux_data_length (n i k : Nat) (ba : BitArray) :
    (moveNegAux n i k ba).data.length = ba.data.length := by
  induction k generalizing i ba with
  | zero => rfl
  | succ k ih => rw [moveNegAux, ih, data_length_writeBit]

theorem moveNegAux_bytes (n i k : Nat) (ba : BitArray) (hb : ∀ x ∈ ba.data, x < 256) :
    ∀ x ∈ (moveNegAux n i k ba).data, x < 256 := by
  induction k generalizing i ba with
  | zero => exact hb
  | succ k ih => exact ih _ _ (bytes_writeBit _ _ _ hb)

theorem moveNegAux_get (n i k : Nat) (ba : BitArray)
    (hk : i + k ≤ bitsN * ba.data.length) (j : Nat) :
    (moveNegAux n i k ba).get j =
      if i ≤ j ∧ j < i + k then ba.get (j + n) else ba.get j := by
  induction k generalizing i ba with
  | zero => rw [show moveNegAux n i 0 ba = ba from rfl, if_neg (by omega)]
  | succ k ih =>
    show (moveNegAux n (i + 1) k (ba.writeBit i (ba.get (i + n)))).get j = _
    rw [ih (i + 1) (ba.writeBit i (ba.get (i + n))) (by rw [data_length_writeBit]; omega)]
    by_cases hj : j = i
    · subst hj
      rw [if_neg (by omega), get_writeBit_self ba j _ (by omega), if_pos (by omega)]
    · by_cases hin : i + 1 ≤ j ∧ j < i + 1 + k
      · rw [if_pos hin, if_pos (by omega), get_writeBit_ne ba i (j + n) _ (by omega)]
      · rw [if_neg hin, if_neg (by omega), get_writeBit_ne ba i j _ hj]

theorem get_replicate_zero (sz n j : Nat) :
    BitArray.get ⟨sz, List.replicate n 0⟩ j = false := by
  rw [get_eq_testBit]
  have hz : BitArray.byteAt ⟨sz, List.replicate n 0⟩ (j / bitsN) = 0 := by
    unfold BitArray.byteAt
    rw [List.getD_eq_getElem?_getD, List.getElem?_replicate]
    split <;> rfl
  rw [hz, Nat.zero_testBit]

theorem zero_valid (sz : Nat) (h : 0 < sz) :
    Valid ⟨sz, List.replicate (numBytes sz) 0⟩ := by
  refine ⟨h, by simp, ?_⟩
  intro b hb
  rw [List.eq_of_mem_replicate hb]
  decide

theorem zero_padOk (sz n : Nat) : PadOk ⟨sz, List.replicate n 0⟩ :=
  fun j _ _ => get_replicate_zero sz n j

theorem set_valid (ba : BitArray) (i : Nat) (hv : Valid ba) : Valid (ba.set i) := by
  obtain ⟨h1, h2, h3⟩ := hv
  exact ⟨h1, by rw [data_length_set]; exact h2, bytes_set ba i h3⟩

theorem unset_valid (ba : BitArray) (i : Nat) (hv : Valid ba) : Valid (ba.unset i) := by
  obtain ⟨h1, h2, h3⟩ := hv
  exact ⟨h1, by rw [data_length_unset]; exact h2, bytes_unset ba i h3⟩

theorem writeBit_valid (ba : BitArray) (i : Nat) (v : Bool) (hv : Valid ba) :
    Valid (ba.writeBit i v) := by
  unfold BitArray.writeBit
  split
  · exact set_valid ba i hv
  · exact unset_valid ba i hv

theorem set_padOk (ba : BitArray) (i : Nat) (hp : PadOk ba) (hi : i < ba.size) :
    PadOk (ba.set i) := by
  intro j hj hsz
  rw [data_length_set] at hj
  rw [show (ba.set i).size = ba.size from rfl] at hsz
  rw [get_set_ne ba i j (by omega)]
  exact hp j hj hsz

theorem unset_padOk (ba : BitArray) (i : Nat) (hp : PadOk ba) :
    PadOk (ba.unset i) := by
  intro j hj hsz
  rw [data_length_unset] at hj
  rw [show (ba.unset i).size = ba.size from rfl] at hsz
  by_cases hij : j = i
  · subst hij
    exact get_unset_self ba j
  · rw [get_unset_ne ba i j hij]
    exact hp j hj hsz

theorem writeBit_padOk (ba : BitArray) (i : Nat) (v : Bool) (hp : PadOk ba)
    (hi : i < ba.size) : PadOk (ba.writeBit i v) := by
  unfold BitArray.writeBit
  split
  · exact set_padOk ba i hp hi
  · exact unset_padOk ba i hp

theorem Set_ok (ba : BitArray) (i : Int) (r : BitArray)
    (h : BitArray.Set ba i = .ok r) :
    0 ≤ i ∧ i < (ba.size : Int) ∧ r = ba.set i.toNat := by
  unfold BitArray.Set BitArray.checkIdx at h
  by_cases hc : i < 0 ∨ (ba.size : Int) ≤ i
  · rw [if_pos hc] at h
    simp at h
  · rw [if_neg hc] at h
    simp only [Except.ok.injEq] at h
    exact ⟨by omega, by omega, h.symm⟩

theorem newLoop_ok (l : List Int) (ba : BitArray) (r : BitArray)
    (h : newLoop ba l = .ok r) (hv : Valid ba) (hp : PadOk ba) :
    Valid r ∧ PadOk r ∧ r.size = ba.size := by
  induction l generalizing ba with
  | nil =>
    simp only [newLoop, Except.ok.injEq] at h
    subst h
    exact ⟨hv, hp, rfl⟩
  | cons i is ih =>
    unfold newLoop at h
    cases hset : BitArray.Set ba i with
    | error e => rw [hset] at h; simp at h
    | ok b2 =>
      rw [hset] at h
      obtain ⟨h0, h1, h2⟩ := Set_ok ba i b2 hset
      subst h2
      have := ih (ba.set i.toNat) h (set_valid ba i.toNat hv)
        (set_padOk ba i.toNat hp (by omega))
      exact ⟨this.1, this.2.1, this.2.2⟩

theorem New_nonpos (sz : Int) (idx : List Int) (h : sz ≤ 0) :
    New sz idx = .error .invalidSize := by
  unfold New
  rw [if_pos h]

theorem New_ok (sz : Int) (idx : List Int) (r : BitArray) (h : New sz idx = .ok r) :
    0 < sz ∧ Valid r ∧ PadOk r ∧ r.size = sz.toNat := by
  unfold New at h
  by_cases hc : sz ≤ 0
  · rw [if_pos hc] at h
    simp at h
  · rw [if_neg hc] at h
    have hz := newLoop_ok idx _ r h (zero_valid sz.toNat (by omega)) (zero_padOk _ _)
    exact ⟨by omega, hz.1, hz.2.1, hz.2.2⟩

theorem New_pos_nil (sz : Int) (h : 0 < sz) :
    New sz [] = .ok ⟨sz.toNat, List.replicate (numBytes sz.toNat) 0⟩ := by
  unfold New
  rw [if_neg (by omega)]
  rfl

theorem getD_map_range (n : Nat) (F : Nat → Nat) (m : Nat) :
    ((List.range n).map F).getD m 0 = if m < n then F m else 0 := by
  rw [List.getD_eq_getElem?_getD]
  by_cases h : m < n
  · rw [List.getElem?_map, List.getElem?_range h, if_pos h]
    rfl
  · rw [List.getElem?_eq_none (by simpa using by omega), if_neg h]
    rfl

theorem getD_lt_256 (d : List Nat) (hb : ∀ b ∈ d, b < 256) (m : Nat) :
    d.getD m 0 < 256 := by
  rw [List.getD_eq_getElem?_getD]
  cases hx : d[m]? with
  | none => simp
  | some v => simpa using hb v (List.getElem?_mem hx)

theorem combineFull_length (f : Nat → Nat → Nat) (d1 d2 : List Nat) :
    (combineFull f d1 d2).length = d1.length := by
  simp [combineFull]

theorem combineLast_length (f : Nat → Nat → Nat) (d1 d2 : List Nat) :
    (combineLast f d1 d2).length = d1.length := by
  simp [combineLast]

theorem byteAt_combineFull (f : Nat → Nat → Nat) (sz : Nat) (d1 d2 : List Nat) (m : Nat) :
    BitArray.byteAt ⟨sz, combineFull f d1 d2⟩ m =
      if m + 1 < d1.length then f (d1.getD m 0) (d2.getD m 0) else d1.getD m 0 := by
  show (combineFull f d1 d2).getD m 0 = _
  unfold combineFull
  rw [getD_map_range]
  by_cases h : m < d1.length
  · rw [if_pos h]
  · rw [if_neg h, if_neg (by omega), List.getD_eq_getElem?_getD,
      List.getElem?_eq_none (by omega)]
    rfl

theorem byteAt_combineLast (f : Nat → Nat → Nat) (sz : Nat) (d1 d2 : List Nat) (m : Nat) :
    BitArray.byteAt ⟨sz, combineLast f d1 d2⟩ m =
      if m + 1 = d1.length then f (d1.getD m 0) (d2.getD m 0) else d1.getD m 0 := by
  show (combineLast f d1 d2).getD m 0 = _
  unfold combineLast
  by_cases h : m + 1 = d1.length
  · rw [if_pos h, show d1.length - 1 = m by omega, getD_set_self _ _ _ (by omega)]
  · rw [if_neg h]
    by_cases h0 : 0 < d1.length
    · rw [getD_set_ne _ _ _ _ (by omega)]
    · have hnil : d1 = [] := by
        cases d1 with
        | nil => rfl
        | cons x xs => simp at h0
      subst hnil
      rfl

theorem combineFull_bytes (f : Nat → Nat → Nat) (d1 d2 : List Nat)
    (hf : ∀ a b, a < 256 → b < 256 → f a b < 256)
    (h1 : ∀ b ∈ d1, b < 256) (h2 : ∀ b ∈ d2, b < 256) :
    ∀ x ∈ combineFull f d1 d2, x < 256 := by
  intro x hx
  unfold combineFull at hx
  obtain ⟨m, -, hm⟩ := List.mem_map.mp hx
  subst hm
  split
  · exact hf _ _ (getD_lt_256 d1 h1 m) (getD_lt_256 d2 h2 m)
  · exact getD_lt_256 d1 h1 m

theorem combineLast_bytes (f : Nat → Nat → Nat) (d1 d2 : List Nat)
    (hf : ∀ a b, a < 256 → b < 256 → f a b < 256)
    (h1 : ∀ b ∈ d1, b < 256) (h2 : ∀ b ∈ d2, b < 256) :
    ∀ x ∈ combineLast f d1 d2, x < 256 := by
  intro x hx
  unfold combineLast at hx
  rcases List.mem_or_eq_of_mem_set hx with hc | hc
  · exact h1 x hc
  · subst hc
    exact hf _ _ (getD_lt_256 d1 h1 _) (getD_lt_256 d2 h2 _)

theorem valid_len_mod_ne (ba : BitArray) (hv : Valid ba) (h : ba.size % bitsN ≠ 0) :
    ba.data.length = ba.size / bitsN + 1 := by
  rw [hv.2.1]
  unfold numBytes
  rw [if_pos (by omega)]

theorem valid_len_mod_eq (ba : BitArray) (hv : Valid ba) (h : ba.size % bitsN = 0) :
    ba.data.length = ba.size / bitsN := by
  rw [hv.2.1]
  unfold numBytes
  rw [if_neg (by omega)]
  omega

theorem getD_combineAll (f : Nat → Nat → Nat) (d1 d2 : List Nat) (m : Nat)
    (h : m < d1.length) :
    (combineLast f (combineFull f d1 d2) d2).getD m 0 = f (d1.getD m 0) (d2.getD m 0) := by
  have h1 := byteAt_combineLast f 0 (combineFull f d1 d2) d2 m
  have h2 := byteAt_combineFull f 0 d1 d2 m
  simp only [BitArray.byteAt] at h1 h2
  rw [h1, combineFull_length, h2]
  by_cases hm : m + 1 = d1.length
  · rw [if_pos hm, if_neg (by omega)]
  · rw [if_neg hm, if_pos (by omega)]

theorem byteAt_combineAll (f : Nat → Nat → Nat) (sz : Nat) (d1 d2 : List Nat) (m : Nat)
    (h : m < d1.length) :
    BitArray.byteAt ⟨sz, combineLast f (combineFull f d1 d2) d2⟩ m =
      f (d1.getD m 0) (d2.getD m 0) := by
  show (combineLast f (combineFull f d1 d2) d2).getD m 0 = _
  exact getD_combineAll f d1 d2 m h

theorem get_mk_combineFull (f : Nat → Nat → Nat) (gf : Bool → Bool → Bool)
    (hf : ∀ a b k, k < bitsN → (f a b).testBit k = gf (a.testBit k) (b.testBit k))
    (ba other : BitArray) (i : Nat) :
    BitArray.get ⟨ba.size, combineFull f ba.data other.data⟩ i =
      if i / bitsN + 1 < ba.data.length then gf (ba.get i) (other.get i)
      else ba.get i := by
  rw [get_eq_testBit]
  have hb := byteAt_combineFull f ba.size ba.data other.data (i / bitsN)
  rw [hb]
  split
  · rw [hf _ _ _ (by simp only [bitsN]; omega), get_eq_testBit, get_eq_testBit]
    rfl
  · rw [get_eq_testBit]
    rfl

theorem get_mk_combineAll (f : Nat → Nat → Nat) (gf : Bool → Bool → Bool)
    (hf : ∀ a b k, k < bitsN → (f a b).testBit k = gf (a.testBit k) (b.testBit k))
    (ba other : BitArray) (i : Nat) (h : i / bitsN < ba.data.length) :
    BitArray.get ⟨ba.size, combineLast f (combineFull f ba.data other.data) other.data⟩ i =
      gf (ba.get i) (other.get i) := by
  rw [get_eq_testBit, byteAt_combineAll f ba.size ba.data other.data _ h,
    hf _ _ _ (by simp only [bitsN]; omega), get_eq_testBit, get_eq_testBit]
  rfl

theorem andStep_size (other b : BitArray) (i : Nat) : (andStep other b i).size = b.size := by
  unfold andStep
  split <;> rfl

theorem andStep_len (other b : BitArray) (i : Nat) :
    (andStep other b i).data.length = b.data.length := by
  unfold andStep
  split
  · rfl
  · exact data_length_unset b i

theorem andStep_bytes (other : BitArray) : ∀ (b : BitArray) (i : Nat),
    (∀ x ∈ b.data, x < 256) → ∀ x ∈ (andStep other b i).data, x < 256 := by
  intro b i hb
  unfold andStep
  split
  · exact hb
  · exact bytes_unset b i hb

theorem andStep_keep (other : BitArray) : ∀ (b : BitArray) (i j : Nat), j ≠ i →
    (andStep other b i).get j = b.get j := by
  intro b i j hj
  unfold andStep
  split
  · rfl
  · exact get_unset_ne b i j hj

theorem andStep_self (other : BitArray) : ∀ (b : BitArray) (i : Nat),
    i < bitsN * b.data.length →
    (andStep other b i).get i = (b.get i && other.get i) := by
  intro b i _
  unfold andStep
  cases h : other.get i
  · simp [h, get_unset_self]
  · simp [h]

theorem andByte_testBit : ∀ (a b k : Nat), k < bitsN →
    (a &&& b).testBit k = (a.testBit k && b.testBit k) :=
  fun a b k _ => Nat.testBit_and a b k

theorem andCore_size (ba other : BitArray) : (andCore ba other).size = ba.size := by
  simp only [andCore]
  split
  · rfl
  · exact upLoop_size _ (fun b i => andStep_size other b i) _ _ _

theorem andCore_data_length (ba other : BitArray) :
    (andCore ba other).data.length = ba.data.length := by
  simp only [andCore]
  split
  · show (combineLast _ _ _).length = _
    rw [combineLast_length, combineFull_length]
  · rw [upLoop_data_length _ (fun b i => andStep_len other b i)]
    exact combineFull_length _ _ _

theorem andCore_valid (ba other : BitArray) (hv : Valid ba) (hv2 : Valid other) :
    Valid (andCore ba other) := by
  have hAnd : ∀ a b : Nat, a < 256 → b < 256 → a &&& b < 256 :=
    fun a b ha _ => lt_of_le_of_lt Nat.and_le_left ha
  refine ⟨?_, ?_, ?_⟩
  · rw [andCore_size]
    exact hv.1
  · rw [andCore_data_length, andCore_size]
    exact hv.2.1
  · simp only [andCore]
    split
    · exact combineLast_bytes _ _ _ hAnd
        (combineFull_bytes _ _ _ hAnd hv.2.2 hv2.2.2) hv2.2.2
    · exact upLoop_bytes _ (andStep_bytes other) _ _ _
        (combineFull_bytes _ _ _ hAnd hv.2.2 hv2.2.2)

theorem andCore_get (ba other : BitArray) (hv : Valid ba) (i : Nat) (hi : i < ba.size) :
    (andCore ba other).get i = (ba.get i && other.get i) := by
  have h8 := valid_size_le ba hv
  simp only [andCore]
  split
  · next hmod =>
    have hL := valid_len_mod_eq ba hv hmod
    exact get_mk_combineAll _ _ andByte_testBit ba other i
      (by simp only [bitsN] at *; omega)
  · next hmod =>
    have hL := valid_len_mod_ne ba hv hmod
    rw [upLoop_get (andStep other) (fun b1 j => b1 && other.get j)
      (andStep_keep other) (fun b i => andStep_len other b i)
      (andStep_self other) _ _ _
      (by rw [combineFull_length]; simp only [bitsN] at *; omega) i]
    rw [get_mk_combineFull _ _ andByte_testBit ba other i]
    by_cases hin : ba.size / bitsN * bitsN ≤ i
    · rw [if_pos ⟨hin, by simp only [bitsN] at *; omega⟩,
        if_neg (by simp only [bitsN] at *; omega)]
    · rw [if_neg (by omega), if_pos (by simp only [bitsN] at *; omega)]

theorem andCore_padOk (ba other : BitArray) (hv : Valid ba) (hp : PadOk ba) :
    PadOk (andCore ba other) := by
  intro j hj hsz
  rw [andCore_data_length] at hj
  rw [andCore_size] at hsz
  have h8 := valid_size_le ba hv
  simp only [andCore]
  split
  · next hmod =>
    have hL := valid_len_mod_eq ba hv hmod
    exact absurd hsz (by simp only [bitsN] at *; omega)
  · next hmod =>
    have hL := valid_len_mod_ne ba hv hmod
    rw [upLoop_get (andStep other) (fun b1 j => b1 && other.get j)
      (andStep_keep other) (fun b i => andStep_len other b i)
      (andStep_self other) _ _ _
      (by rw [combineFull_length]; simp only [bitsN] at *; omega) j]
    rw [if_neg (by simp only [bitsN] at *; omega)]
    rw [get_mk_combineFull _ _ andByte_testBit ba other j]
    rw [if_neg (by simp only [bitsN] at *; omega)]
    exact hp j hj hsz

theorem orStep_size (other b : BitArray) (i : Nat) : (orStep other b i).size = b.size := by
  unfold orStep
  split <;> rfl

theorem orStep_len (other b : BitArray) (i : Nat) :
    (orStep other b i).data.length = b.data.length := by
  unfold orStep
  split
  · exact data_length_set b i
  · rfl

theorem orStep_bytes (other : BitArray) : ∀ (b : BitArray) (i : Nat),
    (∀ x ∈ b.data, x < 256) → ∀ x ∈ (orStep other b i).data, x < 256 := by
  intro b i hb
  unfold orStep
  split
  · exact bytes_set b i hb
  · exact hb

theorem orStep_keep (other : BitArray) : ∀ (b : BitArray) (i j : Nat), j ≠ i →
    (orStep other b i).get j = b.get j := by
  intro b i j hj
  unfold orStep
  split
  · exact get_set_ne b i j hj
  · rfl

theorem orStep_self (other : BitArray) : ∀ (b : BitArray) (i : Nat),
    i < bitsN * b.data.length →
    (orStep other b i).get i = (b.get i || other.get i) := by
  intro b i hi
  unfold orStep
  cases h : other.get i
  · simp [h]
  · simp [h, get_set_self b i hi]

theorem orByte_testBit : ∀ (a b k : Nat), k < bitsN →
    (a ||| b).testBit k = (a.testBit k || b.testBit k) :=
  fun a b k _ => Nat.testBit_or a b k

theorem orCore_size (ba other : BitArray) : (orCore ba other).size = ba.size := by
  simp only [orCore]
  split
  · rfl
  · exact upLoop_size _ (fun b i => orStep_size other b i) _ _ _

theorem orCore_data_length (ba other : BitArray) :
    (orCore ba other).data.length = ba.data.length := by
  simp only [orCore]
  split
  · show (combineLast _ _ _).length = _
    rw [combineLast_length, combineFull_length]
  · rw [upLoop_data_length _ (fun b i => orStep_len other b i)]
    exact combineFull_length _ _ _

theorem orCore_valid (ba other : BitArray) (hv : Valid ba) (hv2 : Valid other) :
    Valid (orCore ba other) := by
  have hOr : ∀ a b : Nat, a < 256 → b < 256 → a ||| b < 256 := by
    intro a b ha hb
    have h2 : (256 : Nat) = 2 ^ 8 := by decide
    rw [h2]
    exact Nat.or_lt_two_pow (h2 ▸ ha) (h2 ▸ hb)
  refine ⟨?_, ?_, ?_⟩
  · rw [orCore_size]
    exact hv.1
  · rw [orCore_data_length, orCore_size]
    exact hv.2.1
  · simp only [orCore]
    split
    · exact combineLast_bytes _ _ _ hOr
        (combineFull_bytes _ _ _ hOr hv.2.2 hv2.2.2) hv2.2.2
    · exact upLoop_bytes _ (orStep_bytes other) _ _ _
        (combineFull_bytes _ _ _ hOr hv.2.2 hv2.2.2)

theorem orCore_get (ba other : BitArray) (hv : Valid ba) (i : Nat) (hi : i < ba.size) :
    (orCore ba other).get i = (ba.get i || other.get i) := by
  have h8 := valid_size_le ba hv
  simp only [orCore]
  split
  · next hmod =>
    have hL := valid_len_mod_eq ba hv hmod
    exact get_mk_combineAll _ _ orByte_testBit ba other i
      (by simp only [bitsN] at *; omega)
  · next hmod =>
    have hL := valid_len_mod_ne ba hv hmod
    rw [upLoop_get (orStep other) (fun b1 j => b1 || other.get j)
      (orStep_keep other) (fun b i => orStep_len other b i)
      (orStep_self other) _ _ _
      (by rw [combineFull_length]; simp only [bitsN] at *; omega) i]
    rw [get_mk_combineFull _ _ orByte_testBit ba other i]
    by_cases hin : ba.size / bitsN * bitsN ≤ i
    · rw [if_pos ⟨hin, by simp only [bitsN] at *; omega⟩,
        if_neg (by simp only [bitsN] at *; omega)]
    · rw [if_neg (by omega), if_pos (by simp only [bitsN] at *; omega)]

theorem orCore_padOk (ba other : BitArray) (hv : Valid ba) (hp : PadOk ba) :
    PadOk (orCore ba other) := by
  intro j hj hsz
  rw [orCore_data_length] at hj
  rw [orCore_size] at hsz
  have h8 := valid_size_le ba hv
  simp only [orCore]
  split
  · next hmod =>
    have hL := valid_len_mod_eq ba hv hmod
    exact absurd hsz (by simp only [bitsN] at *; omega)
  · next hmod =>
    have hL := valid_len_mod_ne ba hv hmod
    rw [upLoop_get (orStep other) (fun b1 j => b1 || other.get j)
      (orStep_keep other) (fun b i => orStep_len other b i)
      (orStep_self other) _ _ _
      (by rw [combineFull_length]; simp only [bitsN] at *; omega) j]
    rw [if_neg (by simp only [bitsN] at *; omega)]
    rw [get_mk_combineFull _ _ orByte_testBit ba other j]
    rw [if_neg (by simp only [bitsN] at *; omega)]
    exact hp j hj hsz

theorem xorStep_size (other b : BitArray) (i : Nat) : (xorStep other b i).size = b.size := by
  simp only [xorStep]
  split
  · rfl
  · split <;> rfl

theorem xorStep_len (other b : BitArray) (i : Nat) :
    (xorStep other b i).data.length = b.data.length := by
  simp only [xorStep]
  split
  · exact data_length_set b i
  · split
    · exact data_length_unset b i
    · rfl

theorem xorStep_bytes (other : BitArray) : ∀ (b : BitArray) (i : Nat),
    (∀ x ∈ b.data, x < 256) → ∀ x ∈ (xorStep other b i).data, x < 256 := by
  intro b i hb
  simp only [xorStep]
  split
  · exact bytes_set b i hb
  · split
    · exact bytes_unset b i hb
    · exact hb

theorem xorStep_keep (other : BitArray) : ∀ (b : BitArray) (i j : Nat), j ≠ i →
    (xorStep other b i).get j = b.get j := by
  intro b i j hj
  simp only [xorStep]
  split
  · exact get_set_ne b i j hj
  · split
    · exact get_unset_ne b i j hj
    · rfl

theorem xorStep_self (other : BitArray) : ∀ (b : BitArray) (i : Nat),
    i < bitsN * b.data.length →
    (xorStep other b i).get i = (xor (b.get i) (other.get i)) := by
  intro b i hi
  simp only [xorStep]
  cases h1 : b.get i <;> cases h2 : other.get i <;>
    simp [h1, h2, get_set_self b i hi, get_unset_self b i]

theorem xorByte_testBit : ∀ (a b k : Nat), k < bitsN →
    (a ^^^ b).testBit k = (xor (a.testBit k) (b.testBit k)) :=
  fun a b k _ => Nat.testBit_xor a b k

theorem xorCore_size (ba other : BitArray) : (xorCore ba other).size = ba.size := by
  simp only [xorCore]
  split
  · rfl
  · exact upLoop_size _ (fun b i => xorStep_size other b i) _ _ _

theorem xorCore_data_length (ba other : BitArray) :
    (xorCore ba other).data.length = ba.data.length := by
  simp only [xorCore]
  split
  · show (combineLast _ _ _).length = _
    rw [combineLast_length, combineFull_length]
  · rw [upLoop_data_length _ (fun b i => xorStep_len other b i)]
    exact combineFull_length _ _ _

theorem xorCore_valid (ba other : BitArray) (hv : Valid ba) (hv2 : Valid other) :
    Valid (xorCore ba other) := by
  have hXor : ∀ a b : Nat, a < 256 → b < 256 → a ^^^ b < 256 := by
    intro a b ha hb
    have h2 : (256 : Nat) = 2 ^ 8 := by decide
    rw [h2]
    exact Nat.xor_lt_two_pow (h2 ▸ ha) (h2 ▸ hb)
  refine ⟨?_, ?_, ?_⟩
  · rw [xorCore_size]
    exact hv.1
  · rw [xorCore_data_length, xorCore_size]
    exact hv.2.1
  · simp only [xorCore]
    split
    · exact combineLast_bytes _ _ _ hXor
        (combineFull_bytes _ _ _ hXor hv.2.2 hv2.2.2) hv2.2.2
    · exact upLoop_bytes _ (xorStep_bytes other) _ _ _
        (combineFull_bytes _ _ _ hXor hv.2.2 hv2.2.2)

theorem xorCore_get (ba other : BitArray) (hv : Valid ba) (i : Nat) (hi : i < ba.size) :
    (xorCore ba other).get i = (xor (ba.get i) (other.get i)) := by
  have h8 := valid_size_le ba hv
  simp only [xorCore]
  split
  · next hmod =>
    have hL := valid_len_mod_eq ba hv hmod
    exact get_mk_combineAll _ _ xorByte_testBit ba other i
      (by simp only [bitsN] at *; omega)
  · next hmod =>
    have hL := valid_len_mod_ne ba hv hmod
    rw [upLoop_get (xorStep other) (fun b1 j => xor b1 (other.get j))
      (xorStep_keep other) (fun b i => xorStep_len other b i)
      (xorStep_self other) _ _ _
      (by rw [combineFull_length]; simp only [bitsN] at *; omega) i]
    rw [get_mk_combineFull _ _ xorByte_testBit ba other i]
    by_cases hin : ba.size / bitsN * bitsN ≤ i
    · rw [if_pos ⟨hin, by simp only [bitsN] at *; omega⟩,
        if_neg (by simp only [bitsN] at *; omega)]
    · rw [if_neg (by omega), if_pos (by simp only [bitsN] at *; omega)]

theorem xorCore_padOk (ba other : BitArray) (hv : Valid ba) (hp : PadOk ba) :
    PadOk (xorCore ba other) := by
  intro j hj hsz
  rw [xorCore_data_length] at hj
  rw [xorCore_size] at hsz
  have h8 := valid_size_le ba hv
  simp only [xorCore]
  split
  · next hmod =>
    have hL := valid_len_mod_eq ba hv hmod
    exact absurd hsz (by simp only [bitsN] at *; omega)
  · next hmod =>
    have hL := valid_len_mod_ne ba hv hmod
    rw [upLoop_get (xorStep other) (fun b1 j => xor b1 (other.get j))
      (xorStep_keep other) (fun b i => xorStep_len other b i)
      (xorStep_self other) _ _ _
      (by rw [combineFull_length]; simp only [bitsN] at *; omega) j]
    rw [if_neg (by simp only [bitsN] at *; omega)]
    rw [get_mk_combineFull _ _ xorByte_testBit ba other j]
    rw [if_neg (by simp only [bitsN] at *; omega)]
    exact hp j hj hsz

theorem andNotStep_size (other b : BitArray) (i : Nat) :
    (andNotStep other b i).size = b.size := by
  unfold andNotStep
  split <;> rfl

theorem andNotStep_len (other b : BitArray) (i : Nat) :
    (andNotStep other b i).data.length = b.data.length := by
  unfold andNotStep
  split
  · exact data_length_unset b i
  · rfl

theorem andNotStep_bytes (other : BitArray) : ∀ (b : BitArray) (i : Nat),
    (∀ x ∈ b.data, x < 256) → ∀ x ∈ (andNotStep other b i).data, x < 256 := by
  intro b i hb
  unfold andNotStep
  split
  · exact bytes_unset b i hb
  · exact hb

theorem andNotStep_keep (other : BitArray) : ∀ (b : BitArray) (i j : Nat), j ≠ i →
    (andNotStep other b i).get j = b.get j := by
  intro b i j hj
  unfold andNotStep
  split
  · exact get_unset_ne b i j hj
  · rfl

theorem andNotStep_self (other : BitArray) : ∀ (b : BitArray) (i : Nat),
    i < bitsN * b.data.length →
    (andNotStep other b i).get i = (b.get i && !other.get i) := by
  intro b i _
  unfold andNotStep
  cases h1 : b.get i <;> cases h2 : other.get i <;>
    simp [h1, h2, get_unset_self b i]

theorem andNotByte_testBit : ∀ (a b k : Nat), k < bitsN →
    (andNotByte a b).testBit k = (a.testBit k && !b.testBit k) := by
  intro a b k hk
  unfold andNotByte
  rw [Nat.testBit_and, Nat.testBit_xor, show (255 : Nat) = 2 ^ 8 - 1 by decide,
    Nat.testBit_two_pow_sub_one]
  have hk8 : k < 8 := by simp only [bitsN] at hk; omega
  simp [hk8]

theorem andNotCore_size (ba other : BitArray) : (andNotCore ba other).size = ba.size := by
  simp only [andNotCore]
  split
  · rfl
  · exact upLoop_size _ (fun b i => andNotStep_size other b i) _ _ _

theorem andNotCore_data_length (ba other : BitArray) :
    (andNotCore ba other).data.length = ba.data.length := by
  simp only [andNotCore]
  split
  · show (combineLast _ _ _).length = _
    rw [combineLast_length, combineFull_length]
  · rw [upLoop_data_length _ (fun b i => andNotStep_len other b i)]
    exact combineFull_length _ _ _

theorem andNotCore_valid (ba other : BitArray) (hv : Valid ba) (hv2 : Valid other) :
    Valid (andNotCore ba other) := by
  have hAN : ∀ a b : Nat, a < 256 → b < 256 → andNotByte a b < 256 :=
    fun a b ha _ => lt_of_le_of_lt Nat.and_le_left ha
  refine ⟨?_, ?_, ?_⟩
  · rw [andNotCore_size]
    exact hv.1
  · rw [andNotCore_data_length, andNotCore_size]
    exact hv.2.1
  · simp only [andNotCore]
    split
    · exact combineLast_bytes _ _ _ hAN
        (combineFull_bytes _ _ _ hAN hv.2.2 hv2.2.2) hv2.2.2
    · exact upLoop_bytes _ (andNotStep_bytes other) _ _ _
        (combineFull_bytes _ _ _ hAN hv.2.2 hv2.2.2)

theorem andNotCore_get (ba other : BitArray) (hv : Valid ba) (i : Nat) (hi : i < ba.size) :
    (andNotCore ba other).get i = (ba.get i && !other.get i) := by
  have h8 := valid_size_le ba hv
  simp only [andNotCore]
  split
  · next hmod =>
    have hL := valid_len_mod_eq ba hv hmod
    exact get_mk_combineAll andNotByte (fun x y => x && !y) andNotByte_testBit ba other i
      (by simp only [bitsN] at *; omega)
  · next hmod =>
    have hL := valid_len_mod_ne ba hv hmod
    rw [upLoop_get (andNotStep other) (fun b1 j => b1 && !other.get j)
      (andNotStep_keep other) (fun b i => andNotStep_len other b i)
      (andNotStep_self other) _ _ _
      (by rw [combineFull_length]; simp only [bitsN] at *; omega) i]
    rw [get_mk_combineFull andNotByte (fun x y => x && !y) andNotByte_testBit ba other i]
    by_cases hin : ba.size / bitsN * bitsN ≤ i
    · rw [if_pos ⟨hin, by simp only [bitsN] at *; omega⟩,
        if_neg (by simp only [bitsN] at *; omega)]
    · rw [if_neg (by omega), if_pos (by simp only [bitsN] at *; omega)]

theorem andNotCore_padOk (ba other : BitArray) (hv : Valid ba) (hp : PadOk ba) :
    PadOk (andNotCore ba other) := by
  intro j hj hsz
  rw [andNotCore_data_length] at hj
  rw [andNotCore_size] at hsz
  have h8 := valid_size_le ba hv
  simp only [andNotCore]
  split
  · next hmod =>
    have hL := valid_len_mod_eq ba hv hmod
    exact absurd hsz (by simp only [bitsN] at *; omega)
  · next hmod =>
    have hL := valid_len_mod_ne ba hv hmod
    rw [upLoop_get (andNotStep other) (fun b1 j => b1 && !other.get j)
      (andNotStep_keep other) (fun b i => andNotStep_len other b i)
      (andNotStep_self other) _ _ _
      (by rw [combineFull_length]; simp only [bitsN] at *; omega) j]
    rw [if_neg (by simp only [bitsN] at *; omega)]
    rw [get_mk_combineFull andNotByte (fun x y => x && !y) andNotByte_testBit ba other j]
    rw [if_neg (by simp only [bitsN] at *; omega)]
    exact hp j hj hsz

theorem notByte_testBit : ∀ (a b k : Nat), k < bitsN →
    (notByte a b).testBit k = !a.testBit k := by
  intro a b k hk
  unfold notByte
  rw [Nat.testBit_xor, show (255 : Nat) = 2 ^ 8 - 1 by decide,
    Nat.testBit_two_pow_sub_one]
  have hk8 : k < 8 := by simp only [bitsN] at hk; omega
  simp [hk8]

theorem notStep_size (b : BitArray) (i : Nat) : (notStep b i).size = b.size := by
  unfold notStep
  split <;> rfl

theorem notStep_len (b : BitArray) (i : Nat) :
    (notStep b i).data.length = b.data.length := by
  unfold notStep
  split
  · exact data_length_unset b i
  · exact data_length_set b i

theorem notStep_bytes : ∀ (b : BitArray) (i : Nat),
    (∀ x ∈ b.data, x < 256) → ∀ x ∈ (notStep b i).data, x < 256 := by
  intro b i hb
  unfold notStep
  split
  · exact bytes_unset b i hb
  · exact bytes_set b i hb

theorem notStep_keep : ∀ (b : BitArray) (i j : Nat), j ≠ i →
    (notStep b i).get j = b.get j := by
  intro b i j hj
  unfold notStep
  split
  · exact get_unset_ne b i j hj
  · exact get_set_ne b i j hj

theorem notStep_self : ∀ (b : BitArray) (i : Nat),
    i < bitsN * b.data.length → (notStep b i).get i = !b.get i := by
  intro b i hi
  unfold notStep
  cases h1 : b.get i <;> simp [h1, get_unset_self b i, get_set_self b i hi]

theorem not_size (ba : BitArray) : (BitArray.Not ba).size = ba.size := by
  simp only [BitArray.Not]
  split
  · rfl
  · exact upLoop_size _ notStep_size _ _ _

theorem not_data_length (ba : BitArray) :
    (BitArray.Not ba).data.length = ba.data.length := by
  simp only [BitArray.Not]
  split
  · show (combineLast _ _ _).length = _
    rw [combineLast_length, combineFull_length]
  · rw [upLoop_data_length _ notStep_len]
    exact combineFull_length _ _ _

theorem not_valid (ba : BitArray) (hv : Valid ba) : Valid (BitArray.Not ba) := by
  have hN : ∀ a b : Nat, a < 256 → b < 256 → notByte a b < 256 := by
    intro a b ha _
    have h2 : (256 : Nat) = 2 ^ 8 := by decide
    unfold notByte
    rw [h2]
    exact Nat.xor_lt_two_pow (h2 ▸ ha) (by decide)
  refine ⟨?_, ?_, ?_⟩
  · rw [not_size]
    exact hv.1
  · rw [not_data_length, not_size]
    exact hv.2.1
  · simp only [BitArray.Not]
    split
    · exact combineLast_bytes _ _ _ hN
        (combineFull_bytes _ _ _ hN hv.2.2 hv.2.2) hv.2.2
    · exact upLoop_bytes _ notStep_bytes _ _ _
        (combineFull_bytes _ _ _ hN hv.2.2 hv.2.2)

theorem not_get (ba : BitArray) (hv : Valid ba) (i : Nat) (hi : i < ba.size) :
    (BitArray.Not ba).get i = !ba.get i := by
  have h8 := valid_size_le ba hv
  simp only [BitArray.Not]
  split
  · next hmod =>
    have hL := valid_len_mod_eq ba hv hmod
    exact get_mk_combineAll notByte (fun x _ => !x) notByte_testBit ba ba i
      (by simp only [bitsN] at *; omega)
  · next hmod =>
    have hL := valid_len_mod_ne ba hv hmod
    rw [upLoop_get notStep (fun b1 _ => !b1) notStep_keep notStep_len
      notStep_self _ _ _
      (by rw [combineFull_length]; simp only [bitsN] at *; omega) i]
    rw [get_mk_combineFull notByte (fun x _ => !x) notByte_testBit ba ba i]
    by_cases hin : ba.size / bitsN * bitsN ≤ i
    · rw [if_pos ⟨hin, by simp only [bitsN] at *; omega⟩,
        if_neg (by simp only [bitsN] at *; omega)]
    · rw [if_neg (by omega), if_pos (by simp only [bitsN] at *; omega)]

theorem not_padOk (ba : BitArray) (hv : Valid ba) (hp : PadOk ba) :
    PadOk (BitArray.Not ba) := by
  intro j hj hsz
  rw [not_data_length] at hj
  rw [not_size] at hsz
  have h8 := valid_size_le ba hv
  simp only [BitArray.Not]
  split
  · next hmod =>
    have hL := valid_len_mod_eq ba hv hmod
    exact absurd hsz (by simp only [bitsN] at *; omega)
  · next hmod =>
    have hL := valid_len_mod_ne ba hv hmod
    rw [upLoop_get notStep (fun b1 _ => !b1) notStep_keep notStep_len
      notStep_self _ _ _
      (by rw [combineFull_length]; simp only [bitsN] at *; omega) j]
    rw [if_neg (by simp only [bitsN] at *; omega)]
    rw [get_mk_combineFull notByte (fun x _ => !x) notByte_testBit ba ba j]
    rw [if_neg (by simp only [bitsN] at *; omega)]
    exact hp j hj hsz

theorem clear_get (ba : BitArray) (j : Nat) : (BitArray.Clear ba).get j = false := by
  rw [get_eq_testBit]
  have hb : BitArray.byteAt (BitArray.Clear ba) (j / bitsN) = 0 := by
    show (ba.data.map _).getD (j / bitsN) 0 = 0
    rw [List.getD_eq_getElem?_getD, List.getElem?_map]
    cases ba.data[j / bitsN]? <;> rfl
  rw [hb, Nat.zero_testBit]

theorem clear_size (ba : BitArray) : (BitArray.Clear ba).size = ba.size := rfl

theorem clear_data_length (ba : BitArray) :
    (BitArray.Clear ba).data.length = ba.data.length := by
  simp [BitArray.Clear]

theorem clear_valid (ba : BitArray) (hv : Valid ba) : Valid (BitArray.Clear ba) := by
  refine ⟨hv.1, by rw [clear_data_length]; exact hv.2.1, ?_⟩
  intro b hb
  obtain ⟨x, -, hx⟩ := List.mem_map.mp hb
  omega

theorem clear_padOk (ba : BitArray) : PadOk (BitArray.Clear ba) :=
  fun j _ _ => clear_get ba j

theorem setAll_mask (r : Nat) (h : 0 < r) : (2 <<< (r - 1)) - 1 = 2 ^ r - 1 := by
  rw [Nat.shiftLeft_eq]
  congr 1
  rw [Nat.mul_comm]
  exact Nat.two_pow_pred_mul_two h

theorem setAll_size (ba : BitArray) : (BitArray.SetAll ba).size = ba.size := rfl

theorem setAll_data_length (ba : BitArray) :
    (BitArray.SetAll ba).data.length = ba.data.length := by
  simp [BitArray.SetAll]

theorem setAll_byteAt (ba : BitArray) (m : Nat) :
    (BitArray.SetAll ba).byteAt m =
      if m < ba.data.length then
        (if m + 1 = ba.data.length then
          (if ba.size % bitsN = 0 then 255 else (2 <<< (ba.size % bitsN - 1)) - 1)
        else 255)
      else 0 := by
  show ((List.range ba.data.length).map _).getD m 0 = _
  rw [getD_map_range]

theorem setAll_valid (ba : BitArray) (hv : Valid ba) : Valid (BitArray.SetAll ba) := by
  refine ⟨hv.1, by rw [setAll_data_length]; exact hv.2.1, ?_⟩
  intro b hb
  obtain ⟨x, -, hx⟩ := List.mem_map.mp hb
  subst hx
  split
  · split
    · decide
    · next hmod =>
      rw [setAll_mask _ (by omega)]
      have : ba.size % bitsN < 8 := by simp only [bitsN]; omega
      have h1 : (2 : Nat) ^ (ba.size % bitsN) ≤ 2 ^ 8 :=
        Nat.pow_le_pow_right (by decide) (by omega)
      omega
  · decide

theorem setAll_get (ba : BitArray) (hv : Valid ba) (i : Nat) (hi : i < ba.size) :
    (BitArray.SetAll ba).get i = true := by
  have h8 := valid_size_le ba hv
  rw [get_eq_testBit, setAll_byteAt]
  rw [if_pos (by simp only [bitsN] at *; omega)]
  by_cases hm : i / bitsN + 1 = ba.data.length
  · rw [if_pos hm]
    by_cases hmod : ba.size % bitsN = 0
    · rw [if_pos hmod, show (255 : Nat) = 2 ^ 8 - 1 by decide,
        Nat.testBit_two_pow_sub_one]
      simp only [bitsN]
      simp
      omega
    · rw [if_neg hmod, setAll_mask _ (by omega), Nat.testBit_two_pow_sub_one]
      have hL := valid_len_mod_ne ba hv hmod
      simp only [bitsN] at *
      simp
      omega
  · rw [if_neg hm, show (255 : Nat) = 2 ^ 8 - 1 by decide,
      Nat.testBit_two_pow_sub_one]
    simp only [bitsN]
    simp
    omega

theorem setAll_padOk (ba : BitArray) (hv : Valid ba) : PadOk (BitArray.SetAll ba) := by
  intro j hj hsz
  rw [setAll_data_length] at hj
  rw [setAll_size] at hsz
  have h8 := valid_size_le ba hv
  rw [get_eq_testBit, setAll_byteAt]
  rw [if_pos (by simp only [bitsN] at *; omega)]
  by_cases hmod : ba.size % bitsN = 0
  · have hL := valid_len_mod_eq ba hv hmod
    exact absurd hsz (by simp only [bitsN] at *; omega)
  · have hL := valid_len_mod_ne ba hv hmod
    rw [if_pos (by simp only [bitsN] at *; omega), if_neg hmod,
      setAll_mask _ (by omega), Nat.testBit_two_pow_sub_one]
    simp only [bitsN] at *
    simp
    omega

theorem clone_eq (ba : BitArray) : Clone ba = ba := rfl

theorem Unset_ok (ba : BitArray) (i : Int) (r : BitArray)
    (h : BitArray.Unset ba i = .ok r) :
    0 ≤ i ∧ i < (ba.size : Int) ∧ r = ba.unset i.toNat := by
  unfold BitArray.Unset BitArray.checkIdx at h
  by_cases hc : i < 0 ∨ (ba.size : Int) ≤ i
  · rw [if_pos hc] at h
    simp at h
  · rw [if_neg hc] at h
    simp only [Except.ok.injEq] at h
    exact ⟨by omega, by omega, h.symm⟩

theorem size_le_8_numBytes (m : Nat) : m ≤ bitsN * numBytes m := by
  unfold numBytes
  simp only [bitsN]
  split <;> omega

theorem sliceStep_size (ba : BitArray) (s0 : Nat) (b : BitArray) (i : Nat) :
    (sliceStep ba s0 b i).size = b.size := by
  unfold sliceStep
  split <;> rfl

theorem sliceStep_len (ba : BitArray) (s0 : Nat) (b : BitArray) (i : Nat) :
    (sliceStep ba s0 b i).data.length = b.data.length := by
  unfold sliceStep
  split
  · exact data_length_set b _
  · rfl

theorem sliceStep_bytes (ba : BitArray) (s0 : Nat) (b : BitArray) (i : Nat)
    (hb : ∀ x ∈ b.data, x < 256) : ∀ x ∈ (sliceStep ba s0 b i).data, x < 256 := by
  unfold sliceStep
  split
  · exact bytes_set b _ hb
  · exact hb

theorem slice_loop_get (ba : BitArray) (s0 k : Nat) :
    ∀ (s : Nat) (b : BitArray), s0 ≤ s → s + k ≤ s0 + bitsN * b.data.length →
    ∀ j, (upLoop (sliceStep ba s0) s k b).get j =
      if s - s0 ≤ j ∧ j < s + k - s0 then (b.get j || ba.get (j + s0))
      else b.get j := by
  induction k with
  | zero =>
    intro s b hs hbound j
    rw [show upLoop (sliceStep ba s0) s 0 b = b from rfl, if_neg (by omega)]
  | succ k ih =>
    intro s b hs hbound j
    show (upLoop (sliceStep ba s0) (s + 1) k (sliceStep ba s0 b s)).get j = _
    rw [ih (s + 1) (sliceStep ba s0 b s) (by omega)
      (by rw [sliceStep_len]; omega) j]
    by_cases hj : j = s - s0
    · subst hj
      rw [if_neg (by omega), if_pos (by omega)]
      unfold sliceStep
      cases hg : ba.get s with
      | false =>
        rw [if_neg (by simp [hg]), show s - s0 + s0 = s by omega, hg]
        simp
      | true =>
        rw [if_pos (by simp [hg]), get_set_self b (s - s0) (by omega),
          show s - s0 + s0 = s by omega, hg]
        simp
    · have hkeep : (sliceStep ba s0 b s).get j = b.get j := by
        unfold sliceStep
        split
        · exact get_set_ne b (s - s0) j hj
        · rfl
      rw [hkeep]
      by_cases hin : s + 1 - s0 ≤ j ∧ j < s + 1 + k - s0
      · rw [if_pos hin, if_pos (by omega)]
      · rw [if_neg hin, if_neg (by omega)]

theorem slice_err_idx1 (ba : BitArray) (st nd : Int)
    (h : st < 0 ∨ (ba.size : Int) ≤ st) :
    Slice ba st nd = .error .indexOOR := by
  unfold Slice BitArray.checkIdx
  rw [if_pos h]

theorem slice_err_idx2 (ba : BitArray) (st nd : Int)
    (h1 : ¬(st < 0 ∨ (ba.size : Int) ≤ st))
    (h2 : nd - 1 < 0 ∨ (ba.size : Int) ≤ nd - 1) :
    Slice ba st nd = .error .indexOOR := by
  unfold Slice BitArray.checkIdx
  rw [if_neg h1, if_pos h2]

theorem slice_err_size (ba : BitArray) (st nd : Int)
    (h1 : ¬(st < 0 ∨ (ba.size : Int) ≤ st))
    (h2 : ¬(nd - 1 < 0 ∨ (ba.size : Int) ≤ nd - 1))
    (h3 : nd - st ≤ 0) :
    Slice ba st nd = .error .invalidSize := by
  unfold Slice BitArray.checkIdx
  rw [if_neg h1, if_neg h2, New_nonpos _ _ h3]

theorem slice_ok_eq (ba : BitArray) (st nd : Int)
    (h1 : ¬(st < 0 ∨ (ba.size : Int) ≤ st))
    (h2 : ¬(nd - 1 < 0 ∨ (ba.size : Int) ≤ nd - 1))
    (h3 : 0 < nd - st) :
    Slice ba st nd = .ok (upLoop (sliceStep ba st.toNat) st.toNat
      (nd.toNat - st.toNat)
      ⟨(nd - st).toNat, List.replicate (numBytes (nd - st).toNat) 0⟩) := by
  unfold Slice BitArray.checkIdx
  rw [if_neg h1, if_neg h2, New_pos_nil _ h3]

theorem Slice_ok_props (ba : BitArray) (st nd : Int) (r : BitArray)
    (h : Slice ba st nd = .ok r) :
    Valid r ∧ PadOk r ∧ r.size = (nd - st).toNat ∧
    (0 ≤ st ∧ st < (ba.size : Int) ∧ 1 ≤ nd ∧ nd ≤ (ba.size : Int) ∧ st < nd) ∧
    (∀ k, k < r.size → r.get k = ba.get (st.toNat + k)) := by
  by_cases h1 : st < 0 ∨ (ba.size : Int) ≤ st
  · rw [slice_err_idx1 ba st nd h1] at h
    simp at h
  by_cases h2 : nd - 1 < 0 ∨ (ba.size : Int) ≤ nd - 1
  · rw [slice_err_idx2 ba st nd h1 h2] at h
    simp at h
  by_cases h3 : nd - st ≤ 0
  · rw [slice_err_size ba st nd h1 h2 h3] at h
    simp at h
  rw [slice_ok_eq ba st nd h1 h2 (by omega)] at h
  simp only [Except.ok.injEq] at h
  subst h
  set m : Nat := (nd - st).toNat with hm
  set z : BitArray := (⟨m, List.replicate (numBytes m) 0⟩ : BitArray) with hz
  have hzlen : z.data.length = numBytes m := by simp [hz]
  have hk : nd.toNat - st.toNat = m := by omega
  have hbound : st.toNat + (nd.toNat - st.toNat) ≤ st.toNat + bitsN * z.data.length := by
    rw [hzlen, hk]
    have := size_le_8_numBytes m
    omega
  have hsz : (upLoop (sliceStep ba st.toNat) st.toNat (nd.toNat - st.toNat) z).size
      = m := upLoop_size _ (sliceStep_size ba st.toNat) _ _ _
  have hlen : (upLoop (sliceStep ba st.toNat) st.toNat (nd.toNat - st.toNat) z).data.length
      = numBytes m := by
    rw [upLoop_data_length _ (sliceStep_len ba st.toNat), hzlen]
  have hget := slice_loop_get ba st.toNat (nd.toNat - st.toNat) st.toNat z
    (le_refl _) hbound
  refine ⟨⟨by rw [hsz]; omega, by rw [hlen, hsz], ?_⟩, ?_, hsz, by omega, ?_⟩
  · exact upLoop_bytes _ (fun b i => sliceStep_bytes ba st.toNat b i) _ _ _
      (by intro x hx; rw [List.eq_of_mem_replicate hx]; decide)
  · intro j hj hszj
    rw [hsz] at hszj
    rw [hget j, if_neg (by omega)]
    exact get_replicate_zero m _ j
  · intro k hk2
    rw [hsz] at hk2
    rw [hget k, if_pos (by omega), get_replicate_zero m _ k,
      Nat.add_comm k st.toNat]
    simp

theorem concatStep2_size (ba2 b : BitArray) (i : Nat) :
    (concatStep2 ba2 b i).size = b.size := by
  unfold concatStep2
  split <;> rfl

theorem concatStep2_len (ba2 b : BitArray) (i : Nat) :
    (concatStep2 ba2 b i).data.length = b.data.length := by
  unfold concatStep2
  split
  · exact data_length_set b i
  · rfl

theorem concatStep2_bytes (ba2 : BitArray) : ∀ (b : BitArray) (i : Nat),
    (∀ x ∈ b.data, x < 256) → ∀ x ∈ (concatStep2 ba2 b i).data, x < 256 := by
  intro b i hb
  unfold concatStep2
  split
  · exact bytes_set b i hb
  · exact hb

theorem concatStep2_keep (ba2 : BitArray) : ∀ (b : BitArray) (i j : Nat), j ≠ i →
    (concatStep2 ba2 b i).get j = b.get j := by
  intro b i j hj
  unfold concatStep2
  split
  · exact get_set_ne b i j hj
  · rfl

theorem concatStep2_self (ba2 : BitArray) : ∀ (b : BitArray) (i : Nat),
    i < bitsN * b.data.length →
    (concatStep2 ba2 b i).get i = (b.get i || ba2.get i) := by
  intro b i hi
  unfold concatStep2
  cases h : ba2.get i
  · simp [h]
  · simp [h, get_set_self b i hi]

theorem concatStep1_size (ba1 : BitArray) (off : Nat) (b : BitArray) (i : Nat) :
    (concatStep1 ba1 off b i).size = b.size := by
  unfold concatStep1
  split <;> rfl

theorem concatStep1_len (ba1 : BitArray) (off : Nat) (b : BitArray) (i : Nat) :
    (concatStep1 ba1 off b i).data.length = b.data.length := by
  unfold concatStep1
  split
  · exact data_length_set b i
  · rfl

theorem concatStep1_bytes (ba1 : BitArray) (off : Nat) : ∀ (b : BitArray) (i : Nat),
    (∀ x ∈ b.data, x < 256) → ∀ x ∈ (concatStep1 ba1 off b i).data, x < 256 := by
  intro b i hb
  unfold concatStep1
  split
  · exact bytes_set b i hb
  · exact hb

theorem concatStep1_keep (ba1 : BitArray) (off : Nat) : ∀ (b : BitArray) (i j : Nat),
    j ≠ i → (concatStep1 ba1 off b i).get j = b.get j := by
  intro b i j hj
  unfold concatStep1
  split
  · exact get_set_ne b i j hj
  · rfl

theorem concatStep1_self (ba1 : BitArray) (off : Nat) : ∀ (b : BitArray) (i : Nat),
    i < bitsN * b.data.length →
    (concatStep1 ba1 off b i).get i = (b.get i || ba1.get (i - off)) := by
  intro b i hi
  unfold concatStep1
  cases h : ba1.get (i - off)
  · simp [h]
  · simp [h, get_set_self b i hi]

theorem concat_copy_get (sz : Nat) (zd : List Nat) (ba2 : BitArray) (n : Nat)
    (hzero : ∀ m, zd.getD m 0 = 0) (j : Nat) :
    BitArray.get ⟨sz, (List.range zd.length).map (fun i =>
        if i < n then ba2.data.getD i 0 else zd.getD i 0)⟩ j =
      (decide (j / bitsN < n) && decide (j / bitsN < zd.length) && ba2.get j) := by
  rw [get_eq_testBit]
  have hb : BitArray.byteAt ⟨sz, (List.range zd.length).map (fun i =>
      if i < n then ba2.data.getD i 0 else zd.getD i 0)⟩ (j / bitsN) =
      if j / bitsN < zd.length then
        (if j / bitsN < n then ba2.data.getD (j / bitsN) 0 else zd.getD (j / bitsN) 0)
      else 0 := by
    show ((List.range zd.length).map _).getD (j / bitsN) 0 = _
    rw [getD_map_range]
  rw [hb]
  by_cases h1 : j / bitsN < zd.length
  · rw [if_pos h1]
    by_cases h2 : j / bitsN < n
    · rw [if_pos h2, get_eq_testBit]
      simp [h1, h2, BitArray.byteAt]
    · rw [if_neg h2, hzero, Nat.zero_testBit]
      simp [h2]
  · rw [if_neg h1, Nat.zero_testBit]
    simp [h1]

theorem Concat_ok_props (ba1 ba2 : BitArray) (r : BitArray)
    (hv1 : Valid ba1) (hv2 : Valid ba2) (h : Concat ba1 ba2 = .ok r) :
    Valid r ∧ PadOk r ∧ r.size = ba1.size + ba2.size ∧
    (∀ k, k < ba2.size → r.get k = ba2.get k) ∧
    (∀ k, ba2.size ≤ k →
      r.get k = if k < ba1.size + ba2.size then ba1.get (k - ba2.size) else false) := by
  have hpos : (0 : Int) < (ba1.size : Int) + (ba2.size : Int) := by
    have := hv1.1
    have := hv2.1
    omega
  unfold Concat at h
  rw [New_pos_nil _ hpos] at h
  simp only [Except.ok.injEq] at h
  set sz : Nat := ((ba1.size : Int) + (ba2.size : Int)).toNat with hszdef
  have hsz12 : sz = ba1.size + ba2.size := by omega
  set zd : List Nat := List.replicate (numBytes sz) 0 with hzd
  have hzdlen : zd.length = numBytes sz := by simp [hzd]
  have hzero : ∀ m, zd.getD m 0 = 0 := by
    intro m
    rw [hzd, List.getD_eq_getElem?_getD, List.getElem?_replicate]
    split <;> rfl
  set n : Nat := ba2.size / bitsN with hn
  set d : List Nat := (List.range zd.length).map (fun i =>
    if i < n then ba2.data.getD i 0 else zd.getD i 0) with hd
  have hdlen : d.length = numBytes sz := by
    rw [hd, List.length_map, List.length_range, hzdlen]
  have h8sz : sz ≤ bitsN * numBytes sz := size_le_8_numBytes sz
  have hn8 : n * bitsN ≤ ba2.size := by
    rw [hn]
    simp only [bitsN]
    omega
  have hnlen : n < numBytes sz := by
    have h1 := hv1.1
    simp only [bitsN] at hn8 h8sz ⊢
    omega
  have hgetd : ∀ j, BitArray.get ⟨sz, d⟩ j =
      (decide (j / bitsN < n) && decide (j / bitsN < zd.length) && ba2.get j) := by
    intro j
    rw [hd]
    exact concat_copy_get sz zd ba2 n hzero j
  set bb : BitArray := upLoop (concatStep2 ba2) (n * bitsN) (ba2.size - n * bitsN) ⟨sz, d⟩
    with hbb
  have hbbsize : bb.size = sz := upLoop_size _ (concatStep2_size ba2) _ _ _
  have hbblen : bb.data.length = numBytes sz := by
    rw [hbb, upLoop_data_length _ (concatStep2_len ba2)]
    exact hdlen
  have hbbget : ∀ j, bb.get j = if j < ba2.size then ba2.get j else false := by
    intro j
    rw [hbb, upLoop_get (concatStep2 ba2) (fun b1 i => b1 || ba2.get i)
      (concatStep2_keep ba2) (fun b i => concatStep2_len ba2 b i)
      (concatStep2_self ba2) _ _ _
      (by show n * bitsN + (ba2.size - n * bitsN) ≤ bitsN * (⟨sz, d⟩ : BitArray).data.length
          show _ ≤ bitsN * d.length
          rw [hdlen]
          have h1 := hv1.1
          simp only [bitsN] at *
          omega) j]
    rw [hgetd j]
    by_cases hj2 : j < ba2.size
    · rw [if_pos hj2]
      by_cases hjn : j / bitsN < n
      · rw [if_neg (by simp only [bitsN] at *; omega)]
        have hzl : j / bitsN < zd.length := by
          rw [hzdlen]
          simp only [bitsN] at *
          omega
        simp [hjn, hzl]
      · rw [if_pos (by constructor <;> simp only [bitsN] at *<;> omega)]
        simp [hjn]
    · rw [if_neg (by omega), if_neg hj2]
      have : ¬(j / bitsN < n) := by simp only [bitsN] at *; omega
      simp [this]
  have hrfin : r = upLoop (concatStep1 ba1 ba2.size) ba2.size (sz - ba2.size) bb := by
    rw [← h]
  have hrget : ∀ j, r.get j =
      if ba2.size ≤ j ∧ j < sz then (bb.get j || ba1.get (j - ba2.size))
      else bb.get j := by
    intro j
    rw [hrfin, upLoop_get (concatStep1 ba1 ba2.size) (fun b1 i => b1 || ba1.get (i - ba2.size))
      (concatStep1_keep ba1 ba2.size) (fun b i => concatStep1_len ba1 ba2.size b i)
      (concatStep1_self ba1 ba2.size) _ _ _
      (by rw [hbblen]; simp only [bitsN] at *; omega) j]
    rw [show ba2.size + (sz - ba2.size) = sz by omega]
  have hrsize : r.size = sz := by
    rw [hrfin, upLoop_size _ (concatStep1_size ba1 ba2.size), hbbsize]
  have hrlen : r.data.length = numBytes sz := by
    rw [hrfin, upLoop_data_length _ (concatStep1_len ba1 ba2.size), hbblen]
  refine ⟨⟨by omega, by rw [hrlen, hrsize], ?_⟩, ?_, by omega, ?_, ?_⟩
  · rw [hrfin]
    refine upLoop_bytes _ (concatStep1_bytes ba1 ba2.size) _ _ _ ?_
    refine upLoop_bytes _ (concatStep2_bytes ba2) _ _ _ ?_
    show ∀ x ∈ d, x < 256
    rw [hd]
    intro x hx
    obtain ⟨m, -, hm⟩ := List.mem_map.mp hx
    subst hm
    split
    · exact getD_lt_256 ba2.data hv2.2.2 m
    · rw [hzero]
      decide
  · intro j hj hjsz
    rw [hrsize] at hjsz
    rw [hrget j, if_neg (by omega), hbbget j, if_neg (by omega)]
  · intro k hk
    rw [hrget k, if_neg (by omega), hbbget k, if_pos hk]
  · intro k hk
    rw [hrget k, hbbget k]
    by_cases hin : k < ba1.size + ba2.size
    · rw [if_pos (by omega), if_neg (by omega), if_pos hin]
      simp
    · rw [if_neg (by omega), if_neg (by omega), if_neg hin]

theorem moveBits_zero (ba : BitArray) : ba.moveBits 0 = (ba, 0, 0) := by
  unfold BitArray.moveBits
  rw [if_pos rfl]

theorem moveBits_pos (ba : BitArray) (n : Int) (h1 : 0 < n) :
    ba.moveBits n = (movePosAux n.toNat (ba.size - n.toNat) ba, 0, n.toNat) := by
  unfold BitArray.moveBits
  rw [if_neg (by omega), if_pos h1]

theorem moveBits_neg (ba : BitArray) (n : Int) (h1 : n < 0) :
    ba.moveBits n = (moveNegAux (-n).toNat 0 (ba.size - (-n).toNat) ba,
      ba.size - (-n).toNat, ba.size) := by
  unfold BitArray.moveBits
  rw [if_neg (by omega), if_neg (by omega)]

theorem shiftStep_size : ∀ (b : BitArray) (i : Nat), (shiftStep b i).size = b.size :=
  fun b i => size_unset b i

theorem shiftStep_len : ∀ (b : BitArray) (i : Nat),
    (shiftStep b i).data.length = b.data.length :=
  fun b i => data_length_unset b i

theorem shiftStep_bytes : ∀ (b : BitArray) (i : Nat),
    (∀ x ∈ b.data, x < 256) → ∀ x ∈ (shiftStep b i).data, x < 256 :=
  fun b i hb => bytes_unset b i hb

theorem shiftStep_keep : ∀ (b : BitArray) (i j : Nat), j ≠ i →
    (shiftStep b i).get j = b.get j :=
  fun b i j hj => get_unset_ne b i j hj

theorem shiftStep_self : ∀ (b : BitArray) (i : Nat), i < bitsN * b.data.length →
    (shiftStep b i).get i = false :=
  fun b i _ => get_unset_self b i

theorem moveBits_fst_size (ba : BitArray) (n : Int) :
    (ba.moveBits n).1.size = ba.size := by
  unfold BitArray.moveBits
  split
  · rfl
  · split
    · exact movePosAux_size _ _ _
    · exact moveNegAux_size _ _ _ _

theorem moveBits_fst_len (ba : BitArray) (n : Int) :
    (ba.moveBits n).1.data.length = ba.data.length := by
  unfold BitArray.moveBits
  split
  · rfl
  · split
    · exact movePosAux_data_length _ _ _
    · exact moveNegAux_data_length _ _ _ _

theorem moveBits_fst_bytes (ba : BitArray) (n : Int) (hb : ∀ x ∈ ba.data, x < 256) :
    ∀ x ∈ (ba.moveBits n).1.data, x < 256 := by
  unfold BitArray.moveBits
  split
  · exact hb
  · split
    · exact movePosAux_bytes _ _ _ hb
    · exact moveNegAux_bytes _ _ _ _ hb

theorem shift_eta (ba : BitArray) (n : Int) :
    (match ba.moveBits n with
      | (b2, s, e) => upLoop shiftStep s (e - s) b2) =
    upLoop shiftStep (ba.moveBits n).2.1 ((ba.moveBits n).2.2 - (ba.moveBits n).2.1)
      (ba.moveBits n).1 := rfl

theorem shift_size (ba : BitArray) (n : Int) : (ba.Shift n).size = ba.size := by
  unfold BitArray.Shift
  split
  · rfl
  · rw [shift_eta, upLoop_size shiftStep shiftStep_size, moveBits_fst_size]

theorem shift_data_length (ba : BitArray) (n : Int) :
    (ba.Shift n).data.length = ba.data.length := by
  unfold BitArray.Shift
  split
  · exact clear_data_length ba
  · rw [shift_eta, upLoop_data_length shiftStep shiftStep_len, moveBits_fst_len]

theorem shift_valid (ba : BitArray) (n : Int) (hv : Valid ba) : Valid (ba.Shift n) := by
  refine ⟨by rw [shift_size]; exact hv.1,
    by rw [shift_data_length, shift_size]; exact hv.2.1, ?_⟩
  unfold BitArray.Shift
  split
  · exact (clear_valid ba hv).2.2
  · rw [shift_eta]
    exact upLoop_bytes shiftStep shiftStep_bytes _ _ _
      (moveBits_fst_bytes ba n hv.2.2)

theorem shift_get_big (ba : BitArray) (n : Int)
    (h : (0 < n ∧ (ba.size : Int) ≤ n) ∨ (n < 0 ∧ (ba.size : Int) ≤ -n)) (j : Nat) :
    (ba.Shift n).get j = false := by
  unfold BitArray.Shift
  rw [if_pos h]
  exact clear_get ba j

theorem shift_zero (ba : BitArray) : ba.Shift 0 = ba := by
  unfold BitArray.Shift
  rw [if_neg (by omega), moveBits_zero]
  rfl

theorem shift_get_pos (ba : BitArray) (n : Int) (hv : Valid ba)
    (h1 : 0 < n) (h2 : n < (ba.size : Int)) (j : Nat) :
    (ba.Shift n).get j =
      if j < n.toNat then false
      else if j < ba.size then ba.get (j - n.toNat) else ba.get j := by
  have h8 := valid_size_le ba hv
  have hred : ba.Shift n
      = upLoop shiftStep 0 (n.toNat - 0) (movePosAux n.toNat (ba.size - n.toNat) ba) := by
    unfold BitArray.Shift
    rw [if_neg (by omega), moveBits_pos ba n h1]
  rw [hred]
  have hlen : (movePosAux n.toNat (ba.size - n.toNat) ba).data.length
      = ba.data.length := movePosAux_data_length _ _ _
  rw [upLoop_get shiftStep (fun _ _ => false) shiftStep_keep
    shiftStep_len shiftStep_self _ _ _ (by rw [hlen]; omega) j]
  rw [movePosAux_get n.toNat (ba.size - n.toNat) ba (by omega) j]
  by_cases hj1 : j < n.toNat
  · rw [if_pos (by omega), if_pos hj1]
  · rw [if_neg (by omega), if_neg hj1]
    by_cases hj2 : j < ba.size
    · rw [if_pos (by omega), if_pos hj2]
    · rw [if_neg (by omega), if_neg hj2]

theorem shift_get_neg (ba : BitArray) (n : Int) (hv : Valid ba)
    (h1 : n < 0) (h2 : -n < (ba.size : Int)) (j : Nat) :
    (ba.Shift n).get j =
      if j + (-n).toNat < ba.size then ba.get (j + (-n).toNat)
      else if j < ba.size then false else ba.get j := by
  have h8 := valid_size_le ba hv
  have hred : ba.Shift n
      = upLoop shiftStep (ba.size - (-n).toNat) (ba.size - (ba.size - (-n).toNat))
        (moveNegAux (-n).toNat 0 (ba.size - (-n).toNat) ba) := by
    unfold BitArray.Shift
    rw [if_neg (by omega), moveBits_neg ba n h1]
  rw [hred]
  have hlen : (moveNegAux (-n).toNat 0 (ba.size - (-n).toNat) ba).data.length
      = ba.data.length := moveNegAux_data_length _ _ _ _
  rw [upLoop_get shiftStep (fun _ _ => false) shiftStep_keep
    shiftStep_len shiftStep_self _ _ _ (by rw [hlen]; omega) j]
  rw [moveNegAux_get (-n).toNat 0 (ba.size - (-n).toNat) ba (by omega) j]
  by_cases hj1 : j + (-n).toNat < ba.size
  · rw [if_neg (by omega), if_pos (by omega), if_pos hj1]
  · rw [if_neg hj1]
    by_cases hj2 : j < ba.size
    · rw [if_pos (by omega), if_pos hj2]
    · rw [if_neg (by omega), if_neg (by omega), if_neg hj2]

theorem shift_padOk (ba : BitArray) (n : Int) (hv : Valid ba) (hp : PadOk ba) :
    PadOk (ba.Shift n) := by
  intro j hj hsz
  rw [shift_data_length] at hj
  rw [shift_size] at hsz
  by_cases hbig : (0 < n ∧ (ba.size : Int) ≤ n) ∨ (n < 0 ∧ (ba.size : Int) ≤ -n)
  · exact shift_get_big ba n hbig j
  by_cases h0 : n = 0
  · subst h0
    rw [shift_zero]
    exact hp j hj hsz
  by_cases hpos : 0 < n
  · rw [shift_get_pos ba n hv hpos (by omega) j, if_neg (by omega), if_neg (by omega)]
    exact hp j hj hsz
  · rw [shift_get_neg ba n hv (by omega) (by omega) j,
      if_neg (by omega), if_neg (by omega)]
    exact hp j hj hsz

theorem neg_tmod_eq (a b : Int) : (-a).tmod b = -(a.tmod b) := by
  simp [Int.tmod_def, Int.neg_tdiv]
  ring

theorem tmod_lb (n s : Int) (hs : 0 < s) : -s < n.tmod s := by
  rcases le_or_lt 0 n with h | h
  · have := Int.tmod_nonneg s h
    omega
  · have h1 : (-n).tmod s < s := Int.tmod_lt_of_pos (-n) hs
    have h2 := neg_tmod_eq (-n) s
    simp at h2
    omega

theorem emod_small (x s : Int) (h1 : 0 ≤ x) (h2 : x < s) : x.emod s = x :=
  Int.emod_eq_of_lt h1 h2

theorem emod_neg_small (x s : Int) (h1 : -s ≤ x) (h2 : x < 0) :
    x.emod s = x + s := by
  have h3 : x.emod s = (x + s * 1).emod s := (Int.add_mul_emod_self_left x s 1).symm
  rw [h3, show x + s * 1 = x + s by ring]
  exact Int.emod_eq_of_lt (by omega) (by omega)

theorem emod_big (x s : Int) (h1 : s ≤ x) (h2 : x < 2 * s) : x.emod s = x - s := by
  have h3 : (x - s + s * 1).emod s = (x - s).emod s := Int.add_mul_emod_self_left (x - s) s 1
  rw [show x - s + s * 1 = x by ring] at h3
  rw [h3]
  exact emod_small _ _ (by omega) (by omega)

theorem rotStep_size (aux : BitArray) (s : Nat) : ∀ (b : BitArray) (i : Nat),
    (rotStep aux s b i).size = b.size :=
  fun b i => size_writeBit b i _

theorem rotStep_len (aux : BitArray) (s : Nat) : ∀ (b : BitArray) (i : Nat),
    (rotStep aux s b i).data.length = b.data.length :=
  fun b i => data_length_writeBit b i _

theorem rotStep_bytes (aux : BitArray) (s : Nat) : ∀ (b : BitArray) (i : Nat),
    (∀ x ∈ b.data, x < 256) → ∀ x ∈ (rotStep aux s b i).data, x < 256 :=
  fun b i hb => bytes_writeBit b i _ hb

theorem rotStep_keep (aux : BitArray) (s : Nat) : ∀ (b : BitArray) (i j : Nat), j ≠ i →
    (rotStep aux s b i).get j = b.get j :=
  fun b i j hj => get_writeBit_ne b i j _ hj

theorem rotStep_self (aux : BitArray) (s : Nat) : ∀ (b : BitArray) (i : Nat),
    i < bitsN * b.data.length → (rotStep aux s b i).get i = aux.get (i - s) :=
  fun b i hi => get_writeBit_self b i _ hi

theorem rotate_zero_eq (ba : BitArray) (n : Int) (hsz : (ba.size : Int) ≠ 0)
    (h : n.tmod ba.size = 0) : ba.Rotate n = .ok ba := by
  unfold BitArray.Rotate
  rw [if_neg hsz]
  simp only
  rw [if_neg (by omega), if_neg (by omega)]

theorem rotate_pos_eq (ba : BitArray) (n : Int) (hsz : (ba.size : Int) ≠ 0)
    (h : 0 < n.tmod ba.size) (aux : BitArray)
    (hs : Slice ba ((ba.size : Int) - n.tmod ba.size) (ba.size : Int) = .ok aux) :
    ba.Rotate n = .ok (rotFinish ba aux (n.tmod ba.size)) := by
  unfold BitArray.Rotate
  rw [if_neg hsz]
  simp only
  rw [if_pos h, hs]

theorem rotate_neg_eq (ba : BitArray) (n : Int) (hsz : (ba.size : Int) ≠ 0)
    (h : n.tmod ba.size < 0) (aux : BitArray)
    (hs : Slice ba 0 (-(n.tmod ba.size)) = .ok aux) :
    ba.Rotate n = .ok (rotFinish ba aux (n.tmod ba.size)) := by
  unfold BitArray.Rotate
  rw [if_neg hsz]
  simp only
  rw [if_neg (by omega), if_pos h, hs]

theorem rotFinish_pos (ba aux : BitArray) (r : Int) (hv : Valid ba)
    (h1 : 0 < r) (h2 : r < (ba.size : Int)) :
    (rotFinish ba aux r).size = ba.size ∧
    (rotFinish ba aux r).data.length = ba.data.length ∧
    ((∀ x ∈ ba.data, x < 256) → ∀ x ∈ (rotFinish ba aux r).data, x < 256) ∧
    (∀ j, (rotFinish ba aux r).get j =
      if j < r.toNat then aux.get j
      else if j < ba.size then ba.get (j - r.toNat) else ba.get j) := by
  have h8 := valid_size_le ba hv
  have hred : rotFinish ba aux r = upLoop (rotStep aux 0) 0 (r.toNat - 0)
      (movePosAux r.toNat (ba.size - r.toNat) ba) := by
    unfold rotFinish
    rw [moveBits_pos ba r h1]
  rw [hred]
  have hlen := movePosAux_data_length r.toNat (ba.size - r.toNat) ba
  refine ⟨?_, ?_, ?_, ?_⟩
  · rw [upLoop_size _ (rotStep_size aux 0), movePosAux_size]
  · rw [upLoop_data_length _ (rotStep_len aux 0), movePosAux_data_length]
  · intro hb
    exact upLoop_bytes _ (rotStep_bytes aux 0) _ _ _ (movePosAux_bytes _ _ _ hb)
  · intro j
    rw [upLoop_get (rotStep aux 0) (fun _ i => aux.get (i - 0)) (rotStep_keep aux 0)
      (rotStep_len aux 0) (rotStep_self aux 0) _ _ _ (by rw [hlen]; omega) j]
    rw [movePosAux_get r.toNat (ba.size - r.toNat) ba (by omega) j]
    by_cases hj1 : j < r.toNat
    · rw [if_pos (by omega), if_pos hj1, Nat.sub_zero]
    · rw [if_neg (by omega), if_neg hj1]
      by_cases hj2 : j < ba.size
      · rw [if_pos (by omega), if_pos hj2]
      · rw [if_neg (by omega), if_neg hj2]

theorem rotFinish_neg (ba aux : BitArray) (r : Int) (hv : Valid ba)
    (h1 : r < 0) (h2 : -(ba.size : Int) < r) :
    (rotFinish ba aux r).size = ba.size ∧
    (rotFinish ba aux r).data.length = ba.data.length ∧
    ((∀ x ∈ ba.data, x < 256) → ∀ x ∈ (rotFinish ba aux r).data, x < 256) ∧
    (∀ j, (rotFinish ba aux r).get j =
      if j < ba.size - (-r).toNat then ba.get (j + (-r).toNat)
      else if j < ba.size then aux.get (j - (ba.size - (-r).toNat))
      else ba.get j) := by
  have h8 := valid_size_le ba hv
  obtain ⟨rn, hrn⟩ : ∃ m : Nat, (m : Int) = -r := ⟨(-r).toNat, by omega⟩
  have hrn2 : (-r).toNat = rn := by omega
  have hred : rotFinish ba aux r = upLoop (rotStep aux (ba.size - rn))
      (ba.size - rn) (ba.size - (ba.size - rn))
      (moveNegAux rn 0 (ba.size - rn) ba) := by
    unfold rotFinish
    rw [moveBits_neg ba r h1, hrn2]
  rw [hred]
  have hlen := moveNegAux_data_length rn 0 (ba.size - rn) ba
  refine ⟨?_, ?_, ?_, ?_⟩
  · rw [upLoop_size _ (rotStep_size aux _), moveNegAux_size]
  · rw [upLoop_data_length _ (rotStep_len aux _), moveNegAux_data_length]
  · intro hb
    exact upLoop_bytes _ (rotStep_bytes aux _) _ _ _ (moveNegAux_bytes _ _ _ _ hb)
  · intro j
    rw [hrn2]
    rw [upLoop_get (rotStep aux (ba.size - rn))
      (fun _ i => aux.get (i - (ba.size - rn)))
      (rotStep_keep aux _) (rotStep_len aux _) (rotStep_self aux _) _ _ _
      (by rw [hlen]; omega) j]
    rw [moveNegAux_get rn 0 (ba.size - rn) ba (by omega) j]
    by_cases hj1 : j < ba.size - rn
    · rw [if_neg (show ¬(ba.size - rn ≤ j ∧
          j < ba.size - rn + (ba.size - (ba.size - rn))) by omega),
        if_pos (show 0 ≤ j ∧ j < 0 + (ba.size - rn) by omega), if_pos hj1]
    · by_cases hj2 : j < ba.size
      · rw [if_pos (show ba.size - rn ≤ j ∧
            j < ba.size - rn + (ba.size - (ba.size - rn)) by omega),
          if_neg hj1, if_pos hj2]
      · rw [if_neg (show ¬(ba.size - rn ≤ j ∧
            j < ba.size - rn + (ba.size - (ba.size - rn))) by omega),
          if_neg (show ¬(0 ≤ j ∧ j < 0 + (ba.size - rn)) by omega),
          if_neg hj1, if_neg hj2]

theorem Rotate_ok_props (ba : BitArray) (n : Int) (hv : Valid ba) :
    ∃ res, ba.Rotate n = .ok res ∧ res.size = ba.size ∧
      res.data.length = ba.data.length ∧ (∀ x ∈ res.data, x < 256) ∧
      (∀ j, j < ba.size →
        res.get j = ba.get ((((j : Int) - n.tmod ba.size).emod ba.size).toNat)) ∧
      (∀ j, ba.size ≤ j → res.get j = ba.get j) := by
  have hs0 : 0 < ba.size := hv.1
  have hszI : (ba.size : Int) ≠ 0 := by omega
  have hub : n.tmod (ba.size : Int) < (ba.size : Int) := Int.tmod_lt_of_pos n (by omega)
  have hlb : -(ba.size : Int) < n.tmod (ba.size : Int) := tmod_lb n ba.size (by omega)
  rcases lt_trichotomy (n.tmod (ba.size : Int)) 0 with hneg | hzero | hpos
  · cases hS : Slice ba 0 (-(n.tmod (ba.size : Int))) with
    | error e =>
      rw [slice_ok_eq ba 0 _ (by omega) (by omega) (by omega)] at hS
      simp at hS
    | ok aux =>
      obtain ⟨hva, -, hasz, -, haget⟩ := Slice_ok_props ba _ _ aux hS
      have hfin := rotFinish_neg ba aux (n.tmod (ba.size : Int)) hv hneg (by omega)
      refine ⟨rotFinish ba aux (n.tmod (ba.size : Int)),
        rotate_neg_eq ba n hszI hneg aux hS, hfin.1, hfin.2.1, hfin.2.2.1 hv.2.2,
        ?_, ?_⟩
      · intro j hj
        rw [hfin.2.2.2 j]
        by_cases hj1 : j < ba.size - (-(n.tmod (ba.size : Int))).toNat
        · rw [if_pos hj1]
          have he : (((j : Int) - n.tmod (ba.size : Int))).emod (ba.size : Int)
              = (j : Int) - n.tmod (ba.size : Int) :=
            emod_small _ _ (by omega) (by omega)
          rw [he]
          congr 1
          omega
        · rw [if_neg hj1, if_pos hj]
          rw [haget (j - (ba.size - (-(n.tmod (ba.size : Int))).toNat)) (by omega)]
          have he : (((j : Int) - n.tmod (ba.size : Int))).emod (ba.size : Int)
              = (j : Int) - n.tmod (ba.size : Int) - (ba.size : Int) :=
            emod_big _ _ (by omega) (by omega)
          rw [he]
          congr 1
          omega
      · intro j hj
        rw [hfin.2.2.2 j, if_neg (by omega), if_neg (by omega)]
  · refine ⟨ba, rotate_zero_eq ba n hszI hzero, rfl, rfl, hv.2.2, ?_, fun _ _ => rfl⟩
    intro j hj
    rw [hzero]
    have he : (((j : Int) - 0)).emod (ba.size : Int) = (j : Int) :=
      by rw [show (j : Int) - 0 = (j : Int) by ring]; exact emod_small _ _ (by omega) (by omega)
    rw [he, Int.toNat_natCast]
  · cases hS : Slice ba ((ba.size : Int) - n.tmod (ba.size : Int)) (ba.size : Int) with
    | error e =>
      rw [slice_ok_eq ba _ _ (by omega) (by omega) (by omega)] at hS
      simp at hS
    | ok aux =>
      obtain ⟨hva, -, hasz, -, haget⟩ := Slice_ok_props ba _ _ aux hS
      have hfin := rotFinish_pos ba aux (n.tmod (ba.size : Int)) hv hpos hub
      refine ⟨rotFinish ba aux (n.tmod (ba.size : Int)),
        rotate_pos_eq ba n hszI hpos aux hS, hfin.1, hfin.2.1, hfin.2.2.1 hv.2.2,
        ?_, ?_⟩
      · intro j hj
        rw [hfin.2.2.2 j]
        by_cases hj1 : j < (n.tmod (ba.size : Int)).toNat
        · rw [if_pos hj1]
          rw [haget j (by omega)]
          have he : (((j : Int) - n.tmod (ba.size : Int))).emod (ba.size : Int)
              = (j : Int) - n.tmod (ba.size : Int) + (ba.size : Int) :=
            emod_neg_small _ _ (by omega) (by omega)
          rw [he]
          congr 1
          omega
        · rw [if_neg hj1, if_pos hj]
          have he : (((j : Int) - n.tmod (ba.size : Int))).emod (ba.size : Int)
              = (j : Int) - n.tmod (ba.size : Int) :=
            emod_small _ _ (by omega) (by omega)
          rw [he]
          congr 1
          omega
      · intro j hj
        rw [hfin.2.2.2 j, if_neg (by omega), if_neg (by omega)]

theorem get_cons (sz sz2 b : Nat) (rest : List Nat) (j : Nat) :
    BitArray.get ⟨sz, b :: rest⟩ (bitsN + j) = BitArray.get ⟨sz2, rest⟩ j := by
  rw [get_eq_testBit, get_eq_testBit]
  have h1 : (bitsN + j) / bitsN = j / bitsN + 1 := by
    simp only [bitsN]
    omega
  have h2 : (bitsN + j) % bitsN = j % bitsN := by
    simp only [bitsN]
    omega
  rw [h1, h2]
  show ((b :: rest).getD (j / bitsN + 1) 0).testBit _ = _
  rw [List.getD_cons_succ]
  rfl

theorem get_head (sz b : Nat) (rest : List Nat) (j : Nat) (hj : j < bitsN) :
    BitArray.get ⟨sz, b :: rest⟩ j = b.testBit j := by
  rw [get_eq_testBit]
  have h1 : j / bitsN = 0 := by
    simp only [bitsN] at hj ⊢
    omega
  have h2 : j % bitsN = j := by
    simp only [bitsN] at hj ⊢
    omega
  rw [h1, h2]
  rfl

theorem countP_range'_shift (p : Nat → Bool) (s k : Nat) :
    (List.range' s k).countP p = (List.range k).countP (fun j => p (s + j)) := by
  rw [List.range'_eq_map_range, List.countP_map]
  rfl

theorem countP_range_split (p : Nat → Bool) (a b : Nat) :
    (List.range (a + b)).countP p =
      (List.range a).countP p + (List.range' a b).countP p := by
  have h := List.range'_append 0 a b 1
  simp only [Nat.zero_add, Nat.one_mul] at h
  rw [List.range_eq_range', show a + b = b + a by omega, ← h, List.countP_append,
    ← List.range_eq_range']

theorem bcount_eq (d : List Nat) (sz : Nat) :
    (d.map onesCount8).sum =
      (List.range (bitsN * d.length)).countP (fun j => BitArray.get ⟨sz, d⟩ j) := by
  induction d with
  | nil => rfl
  | cons b rest ih =>
    show onesCount8 b + (rest.map onesCount8).sum = _
    have hlen : bitsN * (b :: rest).length = bitsN + bitsN * rest.length := by
      simp only [List.length_cons]
      ring
    rw [hlen, countP_range_split _ bitsN (bitsN * rest.length)]
    congr 1
    · unfold onesCount8
      refine (List.countP_congr ?_).symm
      intro j hj
      rw [get_head sz b rest j (List.mem_range.mp hj)]
    · rw [countP_range'_shift, ih]
      refine List.countP_congr ?_
      intro j hj
      rw [get_cons sz sz b rest j]

theorem count_eq_countP (ba : BitArray) :
    ba.Count = (List.range (bitsN * ba.data.length)).countP (fun j => ba.get j) := by
  show (ba.data.map onesCount8).sum = _
  rw [bcount_eq ba.data ba.size]

theorem count_below (ba : BitArray) (hv : Valid ba) (hp : PadOk ba) :
    ba.Count = (List.range ba.size).countP (fun j => ba.get j) := by
  have h8 := valid_size_le ba hv
  rw [count_eq_countP]
  rw [show bitsN * ba.data.length = ba.size + (bitsN * ba.data.length - ba.size) by omega]
  rw [countP_range_split]
  have hz : (List.range' ba.size (bitsN * ba.data.length - ba.size)).countP
      (fun j => ba.get j) = 0 := by
    rw [List.countP_eq_zero]
    intro a ha
    obtain ⟨h1, h2⟩ := List.mem_range'_1.mp ha
    simp [hp a (by omega) h1]
  omega

theorem countP_rotate (p q : Nat → Bool) (s c : Nat) (hc : c ≤ s)
    (h1 : ∀ j, j < c → p j = q (j + (s - c)))
    (h2 : ∀ j, c ≤ j → j < s → p j = q (j - c)) :
    (List.range s).countP p = (List.range s).countP q := by
  have e1 : (List.range c).countP p = (List.range' (s - c) c).countP q := by
    rw [countP_range'_shift]
    refine List.countP_congr ?_
    intro j hj
    rw [h1 j (List.mem_range.mp hj), Nat.add_comm j (s - c)]
  have e2 : (List.range' c (s - c)).countP p = (List.range (s - c)).countP q := by
    rw [countP_range'_shift]
    refine (List.countP_congr ?_).symm
    intro j hj
    have hj2 := List.mem_range.mp hj
    rw [h2 (c + j) (by omega) (by omega), show c + j - c = j by omega]
  have s1 : (List.range s).countP p =
      (List.range c).countP p + (List.range' c (s - c)).countP p := by
    rw [← countP_range_split p c (s - c), show c + (s - c) = s by omega]
  have s2 : (List.range s).countP q =
      (List.range (s - c)).countP q + (List.range' (s - c) c).countP q := by
    rw [← countP_range_split q (s - c) c, show (s - c) + c = s by omega]
  omega

theorem Rotate_ok_full (ba : BitArray) (n : Int) (hv : Valid ba) (hp : PadOk ba) :
    ∃ res, ba.Rotate n = .ok res ∧ Valid res ∧ PadOk res ∧ res.size = ba.size ∧
      (∀ j, j < ba.size →
        res.get j = ba.get ((((j : Int) - n.tmod ba.size).emod ba.size).toNat)) ∧
      res.Count = ba.Count := by
  obtain ⟨res, hok, hsz, hlen, hbytes, hform, hbeyond⟩ := Rotate_ok_props ba n hv
  have hvres : Valid res := by
    refine ⟨by rw [hsz]; exact hv.1, ?_, hbytes⟩
    rw [hlen, hsz]
    exact hv.2.1
  have hpres : PadOk res := by
    intro j hj hjs
    rw [hlen] at hj
    rw [hsz] at hjs
    rw [hbeyond j hjs]
    exact hp j hj hjs
  have hs0 : 0 < ba.size := hv.1
  have hub : n.tmod (ba.size : Int) < (ba.size : Int) := Int.tmod_lt_of_pos n (by omega)
  have hlb : -(ba.size : Int) < n.tmod (ba.size : Int) := tmod_lb n ba.size (by omega)
  refine ⟨res, hok, hvres, hpres, hsz, hform, ?_⟩
  rw [count_below res hvres hpres, count_below ba hv hp, hsz]
  rcases lt_trichotomy (n.tmod (ba.size : Int)) 0 with hneg | hzero | hpos
  · refine countP_rotate _ _ ba.size (ba.size - (-(n.tmod (ba.size : Int))).toNat)
      (by omega) ?_ ?_
    · intro j hj
      rw [hform j (by omega)]
      have he : (((j : Int) - n.tmod (ba.size : Int))).emod (ba.size : Int)
          = (j : Int) - n.tmod (ba.size : Int) :=
        emod_small _ _ (by omega) (by omega)
      rw [he]
      congr 1
      omega
    · intro j hj1 hj2
      rw [hform j hj2]
      have he : (((j : Int) - n.tmod (ba.size : Int))).emod (ba.size : Int)
          = (j : Int) - n.tmod (ba.size : Int) - (ba.size : Int) :=
        emod_big _ _ (by omega) (by omega)
      rw [he]
      congr 1
      omega
  · refine List.countP_congr ?_
    intro j hj
    have hj2 := List.mem_range.mp hj
    rw [hform j hj2, hzero]
    have he : (((j : Int) - 0)).emod (ba.size : Int) = (j : Int) := by
      rw [show (j : Int) - 0 = (j : Int) by ring]
      exact emod_small _ _ (by omega) (by omega)
    rw [he, Int.toNat_natCast]
  · refine countP_rotate _ _ ba.size (n.tmod (ba.size : Int)).toNat (by omega) ?_ ?_
    · intro j hj
      rw [hform j (by omega)]
      have he : (((j : Int) - n.tmod (ba.size : Int))).emod (ba.size : Int)
          = (j : Int) - n.tmod (ba.size : Int) + (ba.size : Int) :=
        emod_neg_small _ _ (by omega) (by omega)
      rw [he]
      congr 1
      omega
    · intro j hj1 hj2
      rw [hform j hj2]
      have he : (((j : Int) - n.tmod (ba.size : Int))).emod (ba.size : Int)
          = (j : Int) - n.tmod (ba.size : Int) :=
        emod_small _ _ (by omega) (by omega)
      rw [he]
      congr 1
      omega

theorem shift_count_le (ba : BitArray) (n : Int) (hv : Valid ba) (hp : PadOk ba) :
    (ba.Shift n).Count ≤ ba.Count := by
  have hvs := shift_valid ba n hv
  have hps := shift_padOk ba n hv hp
  rw [count_below _ hvs hps, count_below ba hv hp, shift_size]
  by_cases hbig : (0 < n ∧ (ba.size : Int) ≤ n) ∨ (n < 0 ∧ (ba.size : Int) ≤ -n)
  · have hz : (List.range ba.size).countP (fun j => (ba.Shift n).get j) = 0 := by
      rw [List.countP_eq_zero]
      intro a _
      simp [shift_get_big ba n hbig a]
    omega
  by_cases h0 : n = 0
  · subst h0
    rw [shift_zero]
  by_cases hpos : 0 < n
  · have hsplit := countP_range_split (fun j => (ba.Shift n).get j)
      n.toNat (ba.size - n.toNat)
    have hnp : n.toNat + (ba.size - n.toNat) = ba.size := by omega
    rw [hnp] at hsplit
    have hz : (List.range n.toNat).countP (fun j => (ba.Shift n).get j) = 0 := by
      rw [List.countP_eq_zero]
      intro a ha
      have := List.mem_range.mp ha
      simp [shift_get_pos ba n hv hpos (by omega) a, this]
    have he : (List.range' n.toNat (ba.size - n.toNat)).countP
        (fun j => (ba.Shift n).get j) =
        (List.range (ba.size - n.toNat)).countP (fun j => ba.get j) := by
      rw [countP_range'_shift]
      refine List.countP_congr ?_
      intro j hj
      have hj2 := List.mem_range.mp hj
      rw [shift_get_pos ba n hv hpos (by omega) (n.toNat + j),
        if_neg (by omega), if_pos (by omega), show n.toNat + j - n.toNat = j by omega]
    have hle : (List.range (ba.size - n.toNat)).countP (fun j => ba.get j) ≤
        (List.range ba.size).countP (fun j => ba.get j) :=
      List.Sublist.countP_le _ (List.range_sublist.mpr (by omega))
    omega
  · have hneg : n < 0 := by omega
    have hnn : -n < (ba.size : Int) := by omega
    have hsplit := countP_range_split (fun j => (ba.Shift n).get j)
      (ba.size - (-n).toNat) (-n).toNat
    have hnp : (ba.size - (-n).toNat) + (-n).toNat = ba.size := by omega
    rw [hnp] at hsplit
    have hz : (List.range' (ba.size - (-n).toNat) (-n).toNat).countP
        (fun j => (ba.Shift n).get j) = 0 := by
      rw [List.countP_eq_zero]
      intro a ha
      obtain ⟨ha1, ha2⟩ := List.mem_range'_1.mp ha
      simp [shift_get_neg ba n hv hneg hnn a, if_neg (show ¬(a + (-n).toNat < ba.size) by omega),
        if_pos (show a < ba.size by omega)]
    have he : (List.range (ba.size - (-n).toNat)).countP
        (fun j => (ba.Shift n).get j) =
        (List.range' (-n).toNat (ba.size - (-n).toNat)).countP (fun j => ba.get j) := by
      rw [countP_range'_shift]
      refine List.countP_congr ?_
      intro j hj
      have hj2 := List.mem_range.mp hj
      rw [shift_get_neg ba n hv hneg hnn j, if_pos (by omega), Nat.add_comm j (-n).toNat]
    have hsplit2 := countP_range_split (fun j => ba.get j)
      (-n).toNat (ba.size - (-n).toNat)
    have hnp2 : (-n).toNat + (ba.size - (-n).toNat) = ba.size := by omega
    rw [hnp2] at hsplit2
    omega

theorem minBinAux_zero : minBinAux 0 = [] := by
  rw [minBinAux]
  norm_num

theorem minBinAux_one : minBinAux 1 = ['1'] := by
  rw [minBinAux]
  norm_num [minBinAux_zero]

theorem replicate_pred (w : Nat) (hw : 1 ≤ w) (c : Char) :
    List.replicate w c = List.replicate (w - 1) c ++ [c] := by
  conv_lhs => rw [show w = (w - 1) + 1 by omega]
  exact List.replicate_succ' _ _

theorem binFmt_step (w b : Nat) (hw : 1 ≤ w) :
    binFmt (w + 1) b = binFmt w (b / 2) ++ [if b % 2 = 1 then '1' else '0'] := by
  unfold binFmt
  by_cases hb : b = 0
  · subst hb
    norm_num
    rw [replicate_pred w hw '0']
    simp
  · rw [if_neg hb, minBinAux, dif_neg hb]
    by_cases hb2 : b / 2 = 0
    · rw [if_pos hb2, hb2, minBinAux_zero]
      norm_num
      rw [replicate_pred w hw '0']
      simp
    · rw [if_neg hb2]
      simp only [List.reverse_cons]
      rw [show ((minBinAux (b / 2)).reverse ++ [if b % 2 = 1 then '1' else '0']).length
          = (minBinAux (b / 2)).reverse.length + 1 by simp]
      rw [show w + 1 - ((minBinAux (b / 2)).reverse.length + 1)
          = w - (minBinAux (b / 2)).reverse.length by omega]
      rw [← List.append_assoc]

theorem binFmt_one (b : Nat) (hb : b < 2) :
    binFmt 1 b = [if b.testBit 0 then '1' else '0'] := by
  interval_cases b
  · rw [show Nat.testBit 0 0 = false from rfl]
    rfl
  · unfold binFmt
    norm_num [minBinAux_one]

theorem binFmt_eq_bitsMSB (w : Nat) (h1 : 1 ≤ w) : ∀ b, b < 2 ^ w →
    binFmt w b = (List.range w).reverse.map (fun j => if b.testBit j then '1' else '0') := by
  induction w with
  | zero => omega
  | succ w ih =>
    intro b hb
    by_cases hw : w = 0
    · subst hw
      rw [binFmt_one b (by omega)]
      rfl
    · rw [binFmt_step w b (by omega), ih (by omega) (b / 2) (by omega)]
      rw [List.range_succ_eq_map, List.reverse_cons, List.map_append,
        ← List.map_reverse, List.map_map]
      congr 1
      · refine List.map_congr_left ?_
        intro a _
        simp only [Function.comp_apply, Nat.succ_eq_add_one, Nat.testBit_add_one]
      · show _ = [if b.testBit 0 then '1' else '0']
        rw [Nat.testBit_zero]
        by_cases hm : b % 2 = 1 <;> simp [hm]

theorem get_block (sz : Nat) (d : List Nat) (L j : Nat) (hj : j < bitsN) :
    BitArray.get ⟨sz, d⟩ (bitsN * L + j) = (d.getD L 0).testBit j := by
  rw [get_eq_testBit]
  have h1 : (bitsN * L + j) / bitsN = L := by
    simp only [bitsN] at hj ⊢
    omega
  have h2 : (bitsN * L + j) % bitsN = j := by
    simp only [bitsN] at hj ⊢
    omega
  rw [h1, h2]
  rfl

theorem byte_chunk_eq (ba : BitArray) (L w : Nat) (hw : 1 ≤ w) (hw8 : w ≤ bitsN)
    (hbyte : ba.byteAt L < 2 ^ w) :
    binFmt w (ba.data.getD L 0) =
      (List.range' (bitsN * L) w).reverse.map
        (fun j => if ba.get j then '1' else '0') := by
  rw [binFmt_eq_bitsMSB w hw (ba.data.getD L 0) hbyte]
  rw [List.range'_eq_map_range, ← List.map_reverse, List.map_map]
  refine List.map_congr_left ?_
  intro a ha
  have ha2 := List.mem_range.mp (List.mem_reverse.mp ha)
  show _ = (if ba.get (bitsN * L + a) then '1' else '0')
  have hb : BitArray.get ⟨ba.size, ba.data⟩ (bitsN * L + a) = ba.get (bitsN * L + a) := rfl
  rw [← hb, get_block ba.size ba.data L a (by omega)]

theorem lower_bytes_eq (ba : BitArray) : ∀ (L : Nat),
    (∀ m, m < L → ba.byteAt m < 256) →
    ((List.range L).reverse.map (fun i => binFmt bitsN (ba.data.getD i 0))).flatten =
      (List.range (bitsN * L)).reverse.map
        (fun j => if ba.get j then '1' else '0') := by
  intro L
  induction L with
  | zero => intro _; rfl
  | succ L ih =>
    intro hbytes
    rw [List.range_succ, List.reverse_append, List.map_append, List.flatten_append]
    rw [show List.reverse [L] = [L] from rfl]
    show (binFmt bitsN (ba.data.getD L 0) :: []).flatten ++ _ = _
    rw [List.flatten_cons, List.flatten_nil, List.append_nil]
    rw [ih (fun m hm => hbytes m (by omega))]
    have hsplit := List.range'_append 0 (bitsN * L) bitsN 1
    simp only [Nat.one_mul, Nat.zero_add] at hsplit
    have : List.range (bitsN * (L + 1)) = List.range' 0 (bitsN * L) ++ List.range' (bitsN * L) bitsN := by
      rw [hsplit, List.range_eq_range']
      congr 1
      ring
    rw [this, List.reverse_append, List.map_append]
    congr 1
    rw [byte_chunk_eq ba L bitsN (by decide) (le_refl _) (by
      have := hbytes L (by omega)
      simpa using this)]
    rw [List.range_eq_range']

theorem string_eq (ba : BitArray) (hv : Valid ba) (hp : PadOk ba) :
    ba.String =
      (List.range ba.size).reverse.map (fun j => if ba.get j then '1' else '0') := by
  have h8 := valid_size_le ba hv
  have hpos : 0 < ba.data.length := by
    have := hv.1
    simp only [bitsN] at h8
    omega
  unfold BitArray.String
  set L1 : Nat := ba.data.length - 1 with hL1
  set w : Nat := if ba.size % bitsN = 0 then bitsN else ba.size % bitsN with hw
  have hw1 : 1 ≤ w := by
    rw [hw]
    split
    · decide
    · simp only [bitsN] at *
      omega
  have hw8 : w ≤ bitsN := by
    rw [hw]
    split
    · exact le_refl _
    · simp only [bitsN] at *
      omega
  have hsz : ba.size = bitsN * L1 + w := by
    rw [hw, hL1]
    rcases hv with ⟨-, hlen, -⟩
    rw [numBytes] at hlen
    by_cases hmod : ba.size % bitsN = 0
    · rw [if_pos hmod]
      rw [if_neg (show ¬ba.size % bitsN > 0 by omega)] at hlen
      simp only [bitsN] at *
      omega
    · rw [if_neg hmod]
      rw [if_pos (show ba.size % bitsN > 0 by omega)] at hlen
      simp only [bitsN] at *
      omega
  have htoplt : ba.byteAt L1 < 2 ^ w := by
    refine Nat.lt_pow_two_of_testBit _ ?_
    intro i hi
    by_cases hi8 : i < bitsN
    · have hpad := hp (bitsN * L1 + i)
        (by simp only [bitsN] at *; omega) (by omega)
      rw [show ba.get (bitsN * L1 + i) = (ba.data.getD L1 0).testBit i from
        get_block ba.size ba.data L1 i hi8] at hpad
      exact hpad
    · refine Nat.testBit_lt_two_pow ?_
      have hb := byteAt_lt ba hv.2.2 L1
      calc ba.byteAt L1 < 256 := hb
        _ = 2 ^ 8 := by decide
        _ ≤ 2 ^ i := Nat.pow_le_pow_right (by decide) (by simp only [bitsN] at hi8; omega)
  rw [byte_chunk_eq ba L1 w hw1 hw8 htoplt]
  rw [lower_bytes_eq ba L1 (fun m _ => byteAt_lt ba hv.2.2 m)]
  rw [hsz]
  have hsplit := List.range'_append 0 (bitsN * L1) w 1
  simp only [Nat.one_mul, Nat.zero_add] at hsplit
  have hR : List.range (bitsN * L1 + w)
      = List.range' 0 (bitsN * L1) ++ List.range' (bitsN * L1) w := by
    rw [List.range_eq_range', show bitsN * L1 + w = w + bitsN * L1 by omega, ← hsplit]
  rw [hR, List.reverse_append, List.map_append, ← List.range_eq_range']

theorem parseLoop_bits (v : BitArray) (sz : Nat) : ∀ (k : Nat) (b : BitArray),
    k ≤ sz → sz ≤ bitsN * b.data.length →
    ∃ r, parseLoop sz ((List.range k).reverse.map
        (fun j => if v.get j then '1' else '0')) (sz - k) b = .ok r ∧
      r.size = b.size ∧ r.data.length = b.data.length ∧
      ((∀ x ∈ b.data, x < 256) → ∀ x ∈ r.data, x < 256) ∧
      (∀ j, r.get j = (b.get j || (decide (j < k) && v.get j))) := by
  intro k
  induction k with
  | zero =>
    intro b hk hlen
    refine ⟨b, rfl, rfl, rfl, fun h => h, ?_⟩
    intro j
    simp
  | succ k ih =>
    intro b hk hlen
    rw [List.range_succ, List.reverse_append, List.map_append]
    rw [show (List.reverse [k]).map (fun j => if v.get j then '1' else '0')
        = [if v.get k then '1' else '0'] from rfl]
    cases hvk : v.get k with
    | true =>
      rw [show (if true = true then '1' else '0') = '1' from rfl, List.singleton_append]
      rw [show ∀ cs, parseLoop sz ('1' :: cs) (sz - (k + 1)) b
          = parseLoop sz cs (sz - (k + 1) + 1) (b.set (sz - 1 - (sz - (k + 1))))
          from fun cs => by rw [parseLoop, if_pos rfl]]
      rw [show sz - 1 - (sz - (k + 1)) = k by omega,
        show sz - (k + 1) + 1 = sz - k by omega]
      obtain ⟨r, hr, h1, h2, h3, h4⟩ := ih (b.set k) (by omega)
        (by rw [data_length_set]; exact hlen)
      refine ⟨r, hr, by rw [h1]; rfl, by rw [h2, data_length_set], ?_, ?_⟩
      · intro hb
        exact h3 (bytes_set b k hb)
      · intro j
        rw [h4 j]
        by_cases hj : j = k
        · subst hj
          rw [get_set_self b j (by omega)]
          simp [hvk]
        · rw [get_set_ne b k j hj]
          by_cases hjk : j < k
          · simp [hjk, show j < k + 1 by omega]
          · simp [hjk, show ¬(j < k + 1) by omega]
    | false =>
      rw [show (if false = true then '1' else '0') = '0' from rfl, List.singleton_append]
      rw [show ∀ cs, parseLoop sz ('0' :: cs) (sz - (k + 1)) b
          = parseLoop sz cs (sz - (k + 1) + 1) b
          from fun cs => by rw [parseLoop, if_neg (by decide), if_neg (by decide)]]
      rw [show sz - (k + 1) + 1 = sz - k by omega]
      obtain ⟨r, hr, h1, h2, h3, h4⟩ := ih b (by omega) hlen
      refine ⟨r, hr, h1, h2, h3, ?_⟩
      intro j
      rw [h4 j]
      by_cases hj : j = k
      · subst hj
        simp [hvk]
      · by_cases hjk : j < k
        · simp [hjk, show j < k + 1 by omega]
        · simp [hjk, show ¬(j < k + 1) by omega]

theorem data_ext (b1 b2 : BitArray) (hsz : b1.size = b2.size)
    (hv1 : Valid b1) (hv2 : Valid b2) (hp1 : PadOk b1) (hp2 : PadOk b2)
    (hbits : ∀ j, j < b1.size → b1.get j = b2.get j) : b1 = b2 := by
  have hlen : b1.data.length = b2.data.length := by
    rw [hv1.2.1, hv2.2.1, hsz]
  have h81 := valid_size_le b1 hv1
  have hbytes : ∀ m, b1.data.getD m 0 = b2.data.getD m 0 := by
    intro m
    by_cases hm : m < b1.data.length
    · refine Nat.eq_of_testBit_eq ?_
      intro i
      by_cases hi8 : i < bitsN
      · have e1 : b1.get (bitsN * m + i) = (b1.data.getD m 0).testBit i :=
          get_block b1.size b1.data m i hi8
        have e2 : b2.get (bitsN * m + i) = (b2.data.getD m 0).testBit i :=
          get_block b2.size b2.data m i hi8
        rw [← e1, ← e2]
        by_cases hidx : bitsN * m + i < b1.size
        · exact hbits _ hidx
        · rw [hp1 _ (by simp only [bitsN] at *; omega) (by omega),
            hp2 _ (by rw [← hlen]; simp only [bitsN] at *; omega) (by omega)]
      · rw [Nat.testBit_lt_two_pow, Nat.testBit_lt_two_pow]
        · calc b2.data.getD m 0 < 256 := getD_lt_256 _ hv2.2.2 m
            _ = 2 ^ 8 := by decide
            _ ≤ 2 ^ i := Nat.pow_le_pow_right (by decide) (by simp only [bitsN] at hi8; omega)
        · calc b1.data.getD m 0 < 256 := getD_lt_256 _ hv1.2.2 m
            _ = 2 ^ 8 := by decide
            _ ≤ 2 ^ i := Nat.pow_le_pow_right (by decide) (by simp only [bitsN] at hi8; omega)
    · rw [List.getD_eq_getElem?_getD, List.getElem?_eq_none (by omega),
        List.getD_eq_getElem?_getD, List.getElem?_eq_none (by omega)]
  have hdata : b1.data = b2.data := by
    refine List.ext_getElem? ?_
    intro m
    by_cases hm : m < b1.data.length
    · rw [List.getElem?_eq_getElem hm, List.getElem?_eq_getElem (by omega)]
      have := hbytes m
      rw [List.getD_eq_getElem _ _ hm, List.getD_eq_getElem _ _ (by omega)] at this
      rw [this]
    · rw [List.getElem?_eq_none (by omega), List.getElem?_eq_none (by omega)]
  obtain ⟨s1, d1⟩ := b1
  obtain ⟨s2, d2⟩ := b2
  simp only at hsz hdata
  rw [hsz, hdata]

theorem parse_string (v : BitArray) (hv : Valid v) (hp : PadOk v) :
    Parse v.String = .ok v := by
  rw [string_eq v hv hp]
  unfold Parse
  have hfil : ((List.range v.size).reverse.map
        (fun j => if v.get j then '1' else '0')).filter (fun c => c != Char.ofNat 32)
      = (List.range v.size).reverse.map (fun j => if v.get j then '1' else '0') := by
    rw [List.filter_eq_self]
    intro a ha
    obtain ⟨j, -, hj⟩ := List.mem_map.mp ha
    rw [← hj]
    split <;> decide
  rw [hfil]
  unfold parseGo
  have hlen : ((List.range v.size).reverse.map
      (fun j => if v.get j then '1' else '0')).length = v.size := by
    simp
  rw [hlen]
  have hnew := New_pos_nil (v.size : Int) (by have := hv.1; omega)
  rw [hnew]
  show parseLoop v.size _ 0 ⟨v.size, List.replicate (numBytes v.size) 0⟩ = .ok v
  obtain ⟨r, hr, hrsz, hrlen, hrbytes, hrget⟩ := parseLoop_bits v v.size v.size
    (⟨v.size, List.replicate (numBytes v.size) 0⟩ : BitArray) (le_refl _)
    (by show v.size ≤ bitsN * (List.replicate (numBytes v.size) 0).length
        rw [List.length_replicate]
        exact size_le_8_numBytes v.size)
  rw [Nat.sub_self] at hr
  rw [hr]
  have hrv : r = v := by
    have hrszv : r.size = v.size := hrsz
    have hrlenv : r.data.length = numBytes v.size := by
      rw [hrlen]
      show (List.replicate (numBytes v.size) 0).length = _
      rw [List.length_replicate]
    refine data_ext r v hrszv ?_ hv ?_ hp ?_
    · refine ⟨?_, ?_, ?_⟩
      · rw [hrszv]
        exact hv.1
      · rw [hrlenv, hrszv]
      · refine hrbytes ?_
        intro x hx
        rw [List.eq_of_mem_replicate hx]
        decide
    · intro j hj hjs
      rw [hrszv] at hjs
      rw [hrget j, get_replicate_zero]
      simp [show ¬(j < v.size) from not_lt.mpr hjs]
    · intro j hj
      rw [hrszv] at hj
      rw [hrget j, get_replicate_zero]
      simp [hj]
  rw [hrv]

theorem parse_space (s : List Char) (h : ∀ c ∈ s, c = Char.ofNat 32) :
    Parse s = .error .invalidSize := by
  unfold Parse parseGo
  have hfil : s.filter (fun c => c != Char.ofNat 32) = [] := by
    rw [List.filter_eq_nil_iff]
    intro a ha
    simp [h a ha]
  rw [hfil]
  rw [show ((([] : List Char).length : Nat) : Int) = 0 from rfl]
  rw [New_nonpos 0 [] (by omega)]

theorem parseLoop_props (sz : Nat) : ∀ (cs : List Char) (i : Nat) (b r : BitArray),
    parseLoop sz cs i b = .ok r → Valid b → PadOk b → sz = b.size →
    Valid r ∧ PadOk r ∧ r.size = b.size := by
  intro cs
  induction cs with
  | nil =>
    intro i b r h hv hp hsz
    cases h
    exact ⟨hv, hp, rfl⟩
  | cons c cs ih =>
    intro i b r h hv hp hsz
    rw [parseLoop] at h
    by_cases h1 : c = '1'
    · rw [if_pos h1] at h
      have hidx : sz - 1 - i < b.size := by
        have := hv.1
        omega
      obtain ⟨hvr, hpr, hszr⟩ := ih (i + 1) (b.set (sz - 1 - i)) r h
        (set_valid _ _ hv) (set_padOk _ _ hp hidx) hsz
      exact ⟨hvr, hpr, hszr⟩
    · rw [if_neg h1] at h
      by_cases h0 : c ≠ '0'
      · rw [if_pos h0] at h
        simp at h
      · rw [if_neg h0] at h
        exact ih (i + 1) b r h hv hp hsz

theorem Parse_ok_props (s : List Char) (r : BitArray) (h : Parse s = .ok r) :
    Valid r ∧ PadOk r := by
  unfold Parse parseGo at h
  cases hN : New (((s.filter (fun c => c != Char.ofNat 32)).length : Nat) : Int) [] with
  | error e =>
    rw [hN] at h
    simp at h
  | ok z =>
    rw [hN] at h
    obtain ⟨hpos, hvz, hpz, hzsz⟩ := New_ok _ _ _ hN
    obtain ⟨h1, h2, -⟩ := parseLoop_props (s.filter (fun c => c != Char.ofNat 32)).length
      (s.filter (fun c => c != Char.ofNat 32)) 0 z r h hvz hpz (by omega)
    exact ⟨h1, h2⟩

theorem decodeNat_marshal (n : Nat) (rest : List Nat) :
    decodeNatAux (marshalNat n ++ rest) = .ok (n, rest) := by
  induction n with
  | zero => rfl
  | succ n ih =>
    show decodeNatAux ((List.replicate (n + 1) 1 ++ [0]) ++ rest) = _
    rw [List.replicate_succ]
    show decodeNatAux (1 :: (List.replicate n 1 ++ [0] ++ rest)) = _
    rw [decodeNatAux, if_neg (by decide)]
    have : decodeNatAux (List.replicate n 1 ++ [0] ++ rest) = .ok (n, rest) := ih
    rw [this]

theorem takeN_exact (l rest : List Nat) : takeN l.length (l ++ rest) = .ok (l, rest) := by
  induction l with
  | nil => rfl
  | cons b l ih =>
    show takeN (l.length + 1) (b :: (l ++ rest)) = _
    rw [takeN, ih]

theorem unmarshal_marshal (ba : BitArray) :
    UnmarshalBinary (MarshalBinary ba) = .ok ba := by
  unfold MarshalBinary UnmarshalBinary
  rw [List.append_assoc, decodeNat_marshal]
  show unmarshalStage2 ba.size (marshalNat ba.data.length ++ ba.data) = _
  unfold unmarshalStage2
  rw [decodeNat_marshal]
  show unmarshalStage3 ba.size ba.data.length ba.data = _
  unfold unmarshalStage3
  have ht := takeN_exact ba.data ([] : List Nat)
  rw [List.append_nil] at ht
  rw [ht]

theorem takeN_short (m : Nat) : ∀ (l : List Nat), l.length < m →
    takeN m l = .error .truncated := by
  induction m with
  | zero =>
    intro l h
    omega
  | succ m ih =>
    intro l h
    cases l with
    | nil => rfl
    | cons b l2 =>
      show takeN (m + 1) (b :: l2) = _
      rw [takeN, ih l2 (by simp at h; omega)]

theorem decodeNat_truncation (n : Nat) : ∀ (rest : List Nat) (k : Nat),
    decodeNatAux ((marshalNat n ++ rest).take k) =
      if k ≤ n then .error .truncated
      else .ok (n, rest.take (k - n - 1)) := by
  induction n with
  | zero =>
    intro rest k
    cases k with
    | zero => rfl
    | succ k =>
      rw [if_neg (by omega)]
      show decodeNatAux ((0 :: rest).take (k + 1)) = _
      rw [List.take_succ_cons, decodeNatAux, if_pos rfl,
        show k + 1 - 0 - 1 = k by omega]
  | succ n ih =>
    intro rest k
    cases k with
    | zero =>
      rw [if_pos (by omega)]
      rfl
    | succ k =>
      show decodeNatAux (((List.replicate (n + 1) 1 ++ [0]) ++ rest).take (k + 1)) = _
      rw [List.replicate_succ, List.cons_append, List.cons_append,
        List.take_succ_cons, decodeNatAux, if_neg (by decide)]
      rw [show List.replicate n 1 ++ [0] ++ rest = marshalNat n ++ rest from rfl]
      rw [ih rest k]
      by_cases hk : k ≤ n
      · rw [if_pos hk, if_pos (by omega)]
      · rw [if_neg hk, if_neg (by omega),
          show k + 1 - (n + 1) - 1 = k - n - 1 by omega]

theorem marshal_length (ba : BitArray) :
    (MarshalBinary ba).length = ba.size + 1 + (ba.data.length + 1) + ba.data.length := by
  simp [MarshalBinary, marshalNat]
  omega

theorem unmarshal_truncation (ba : BitArray) (k : Nat) (hk : k < (MarshalBinary ba).length) :
    UnmarshalBinary ((MarshalBinary ba).take k) = .error .truncated := by
  have hlen := marshal_length ba
  unfold MarshalBinary at *
  rw [List.append_assoc]
  unfold UnmarshalBinary
  rw [decodeNat_truncation ba.size (marshalNat ba.data.length ++ ba.data) k]
  by_cases h1 : k ≤ ba.size
  · rw [if_pos h1]
  · rw [if_neg h1]
    show unmarshalStage2 ba.size
      ((marshalNat ba.data.length ++ ba.data).take (k - ba.size - 1)) = _
    unfold unmarshalStage2
    rw [decodeNat_truncation ba.data.length ba.data (k - ba.size - 1)]
    by_cases h2 : k - ba.size - 1 ≤ ba.data.length
    · rw [if_pos h2]
    · rw [if_neg h2]
      show unmarshalStage3 ba.size ba.data.length
        (ba.data.take (k - ba.size - 1 - ba.data.length - 1)) = _
      unfold unmarshalStage3
      rw [takeN_short _ _ (by
        rw [List.length_take]
        omega)]

theorem And_err (ba other : BitArray) (h : ba.size ≠ other.size) :
    ba.And other = .error .sizeMismatch := by
  unfold BitArray.And BitArray.checkSize
  rw [if_pos h]

theorem And_eq (ba other : BitArray) (h : ba.size = other.size) :
    ba.And other = .ok (andCore ba other) := by
  unfold BitArray.And BitArray.checkSize
  rw [if_neg (by omega)]

theorem Or_err (ba other : BitArray) (h : ba.size ≠ other.size) :
    ba.Or other = .error .sizeMismatch := by
  unfold BitArray.Or BitArray.checkSize
  rw [if_pos h]

theorem Or_eq (ba other : BitArray) (h : ba.size = other.size) :
    ba.Or other = .ok (orCore ba other) := by
  unfold BitArray.Or BitArray.checkSize
  rw [if_neg (by omega)]

theorem Xor_err (ba other : BitArray) (h : ba.size ≠ other.size) :
    ba.Xor other = .error .sizeMismatch := by
  unfold BitArray.Xor BitArray.checkSize
  rw [if_pos h]

theorem Xor_eq (ba other : BitArray) (h : ba.size = other.size) :
    ba.Xor other = .ok (xorCore ba other) := by
  unfold BitArray.Xor BitArray.checkSize
  rw [if_neg (by omega)]

theorem AndNot_err (ba other : BitArray) (h : ba.size ≠ other.size) :
    ba.AndNot other = .error .sizeMismatch := by
  unfold BitArray.AndNot BitArray.checkSize
  rw [if_pos h]

theorem AndNot_eq (ba other : BitArray) (h : ba.size = other.size) :
    ba.AndNot other = .ok (andNotCore ba other) := by
  unfold BitArray.AndNot BitArray.checkSize
  rw [if_neg (by omega)]

theorem And_ok (ba other r : BitArray) (h : ba.And other = .ok r) :
    ba.size = other.size ∧ r = andCore ba other := by
  by_cases hs : ba.size = other.size
  · rw [And_eq ba other hs] at h
    simp only [Except.ok.injEq] at h
    exact ⟨hs, h.symm⟩
  · rw [And_err ba other hs] at h
    simp at h

theorem Or_ok (ba other r : BitArray) (h : ba.Or other = .ok r) :
    ba.size = other.size ∧ r = orCore ba other := by
  by_cases hs : ba.size = other.size
  · rw [Or_eq ba other hs] at h
    simp only [Except.ok.injEq] at h
    exact ⟨hs, h.symm⟩
  · rw [Or_err ba other hs] at h
    simp at h

theorem Xor_ok (ba other r : BitArray) (h : ba.Xor other = .ok r) :
    ba.size = other.size ∧ r = xorCore ba other := by
  by_cases hs : ba.size = other.size
  · rw [Xor_eq ba other hs] at h
    simp only [Except.ok.injEq] at h
    exact ⟨hs, h.symm⟩
  · rw [Xor_err ba other hs] at h
    simp at h

theorem AndNot_ok (ba other r : BitArray) (h : ba.AndNot other = .ok r) :
    ba.size = other.size ∧ r = andNotCore ba other := by
  by_cases hs : ba.size = other.size
  · rw [AndNot_eq ba other hs] at h
    simp only [Except.ok.injEq] at h
    exact ⟨hs, h.symm⟩
  · rw [AndNot_err ba other hs] at h
    simp at h

theorem Concat_exists (ba1 ba2 : BitArray) (hv1 : Valid ba1) (hv2 : Valid ba2) :
    ∃ r, Concat ba1 ba2 = .ok r := by
  have h1 := hv1.1
  have h2 := hv2.1
  unfold Concat
  rw [New_pos_nil ((ba1.size : Int) + (ba2.size : Int)) (by omega)]
  exact ⟨_, rfl⟩

theorem reachable_valid_padOk (ba : BitArray) (h : Reachable ba) :
    Valid ba ∧ PadOk ba := by
  induction h with
  | ofNew sz idxs b hN =>
    obtain ⟨-, hv, hp, -⟩ := New_ok sz idxs b hN
    exact ⟨hv, hp⟩
  | ofParse s b hP => exact Parse_ok_props s b hP
  | ofClone b hR ih => rw [clone_eq]; exact ih
  | ofSlice b st nd r hR hS ih =>
    obtain ⟨hv, hp, -⟩ := Slice_ok_props b st nd r hS
    exact ⟨hv, hp⟩
  | ofConcat a b r hRa hRb hC iha ihb =>
    obtain ⟨hv, hp, -⟩ := Concat_ok_props a b r iha.1 ihb.1 hC
    exact ⟨hv, hp⟩
  | ofSet b i r hR hS ih =>
    obtain ⟨h0, h1, h2⟩ := Set_ok b i r hS
    subst h2
    exact ⟨set_valid b i.toNat ih.1, set_padOk b i.toNat ih.2 (by omega)⟩
  | ofUnset b i r hR hS ih =>
    obtain ⟨h0, h1, h2⟩ := Unset_ok b i r hS
    subst h2
    exact ⟨unset_valid b i.toNat ih.1, unset_padOk b i.toNat ih.2⟩
  | ofClear b hR ih => exact ⟨clear_valid b ih.1, clear_padOk b⟩
  | ofSetAll b hR ih => exact ⟨setAll_valid b ih.1, setAll_padOk b ih.1⟩
  | ofAnd b other r hR hRo hA ih iho =>
    obtain ⟨hs, hr⟩ := And_ok b other r hA
    subst hr
    exact ⟨andCore_valid b other ih.1 iho.1, andCore_padOk b other ih.1 ih.2⟩
  | ofOr b other r hR hRo hA ih iho =>
    obtain ⟨hs, hr⟩ := Or_ok b other r hA
    subst hr
    exact ⟨orCore_valid b other ih.1 iho.1, orCore_padOk b other ih.1 ih.2⟩
  | ofXor b other r hR hRo hA ih iho =>
    obtain ⟨hs, hr⟩ := Xor_ok b other r hA
    subst hr
    exact ⟨xorCore_valid b other ih.1 iho.1, xorCore_padOk b other ih.1 ih.2⟩
  | ofAndNot b other r hR hRo hA ih iho =>
    obtain ⟨hs, hr⟩ := AndNot_ok b other r hA
    subst hr
    exact ⟨andNotCore_valid b other ih.1 iho.1, andNotCore_padOk b other ih.1 ih.2⟩
  | ofNot b hR ih => exact ⟨not_valid b ih.1, not_padOk b ih.1 ih.2⟩
  | ofRotate b n r hR hRot ih =>
    obtain ⟨res, hok, hv, hp, -⟩ := Rotate_ok_full b n ih.1 ih.2
    rw [hok] at hRot
    simp only [Except.ok.injEq] at hRot
    subst hRot
    exact ⟨hv, hp⟩
  | ofShift b n hR ih => exact ⟨shift_valid b n ih.1, shift_padOk b n ih.1 ih.2⟩

/-- C1: every BitArray reachable through the public constructors (`New`,
`Parse`, `Clone`, `Slice`, `Concat`) and any sequence of the public mutating
operations (`Set`, `Unset`, `Clear`, `SetAll`, `And`, `Or`, `Xor`, `AndNot`,
`Not`, `Rotate`, `Shift`) keeps every storage bit at a position at or above
`size` equal to 0; on such an array, when `size` is not a multiple of 8,
`SetAll` writes the mask `2 ^ (size % 8) - 1` into the final byte, and `Not`
leaves the padding bits at 0. -/
theorem c1_padding_invariant (ba : BitArray) (h : Reachable ba) :
    PadOk ba ∧
    (ba.size % bitsN ≠ 0 →
      (BitArray.SetAll ba).byteAt (ba.data.length - 1) = 2 ^ (ba.size % bitsN) - 1) ∧
    PadOk (BitArray.Not ba) := by
  obtain ⟨hv, hp⟩ := reachable_valid_padOk ba h
  have h8 := valid_size_le ba hv
  have hlen : 0 < ba.data.length := by
    have := hv.1
    simp only [bitsN] at h8
    omega
  refine ⟨hp, ?_, not_padOk ba hv hp⟩
  intro hmod
  rw [setAll_byteAt ba (ba.data.length - 1), if_pos (by omega), if_pos (by omega),
    if_neg hmod, setAll_mask (ba.size % bitsN) (by omega)]

theorem c1_padding_invariant_witness :
    PadOk (⟨3, [5]⟩ : BitArray) ∧
    ((⟨3, [5]⟩ : BitArray).size % bitsN ≠ 0 →
      (BitArray.SetAll ⟨3, [5]⟩).byteAt ((⟨3, [5]⟩ : BitArray).data.length - 1)
        = 2 ^ ((⟨3, [5]⟩ : BitArray).size % bitsN) - 1) ∧
    PadOk (BitArray.Not ⟨3, [5]⟩) :=
  c1_padding_invariant ⟨3, [5]⟩ (Reachable.ofNew 3 [0, 2] ⟨3, [5]⟩ (by rfl))

/-- C2: on operands of equal size, `And`, `Or`, `Xor` and `AndNot` succeed and
the result's bit `i` is the boolean AND / OR / XOR / AND-NOT of the receiver's
and the argument's bits at `i` for every `i < size`; when the sizes differ each
of the four fails with the size-mismatch panic before any mutation; `Not`
complements exactly the bits at indices below `size`. -/
theorem c2_bitwise_algebra (ba other : BitArray) (hv : Valid ba) :
    (ba.size ≠ other.size →
      ba.And other = .error .sizeMismatch ∧ ba.Or other = .error .sizeMismatch ∧
      ba.Xor other = .error .sizeMismatch ∧ ba.AndNot other = .error .sizeMismatch) ∧
    (ba.size = other.size →
      ∃ ra ro rx rn, ba.And other = .ok ra ∧ ba.Or other = .ok ro ∧
        ba.Xor other = .ok rx ∧ ba.AndNot other = .ok rn ∧
        ∀ i, i < ba.size →
          ra.get i = (ba.get i && other.get i) ∧
          ro.get i = (ba.get i || other.get i) ∧
          rx.get i = xor (ba.get i) (other.get i) ∧
          rn.get i = (ba.get i && !other.get i)) ∧
    (∀ i, i < ba.size → (BitArray.Not ba).get i = !ba.get i) := by
  refine ⟨?_, ?_, fun i hi => not_get ba hv i hi⟩
  · intro hne
    exact ⟨And_err ba other hne, Or_err ba other hne, Xor_err ba other hne,
      AndNot_err ba other hne⟩
  · intro hse
    exact ⟨andCore ba other, orCore ba other, xorCore ba other, andNotCore ba other,
      And_eq ba other hse, Or_eq ba other hse, Xor_eq ba other hse,
      AndNot_eq ba other hse, fun i hi =>
        ⟨andCore_get ba other hv i hi, orCore_get ba other hv i hi,
         xorCore_get ba other hv i hi, andNotCore_get ba other hv i hi⟩⟩

theorem c2_bitwise_algebra_witness :
    ∃ ra ro rx rn, (⟨3, [5]⟩ : BitArray).And ⟨3, [3]⟩ = .ok ra ∧
      (⟨3, [5]⟩ : BitArray).Or ⟨3, [3]⟩ = .ok ro ∧
      (⟨3, [5]⟩ : BitArray).Xor ⟨3, [3]⟩ = .ok rx ∧
      (⟨3, [5]⟩ : BitArray).AndNot ⟨3, [3]⟩ = .ok rn ∧
      ∀ i, i < (⟨3, [5]⟩ : BitArray).size →
        ra.get i = ((⟨3, [5]⟩ : BitArray).get i && (⟨3, [3]⟩ : BitArray).get i) ∧
        ro.get i = ((⟨3, [5]⟩ : BitArray).get i || (⟨3, [3]⟩ : BitArray).get i) ∧
        rx.get i = xor ((⟨3, [5]⟩ : BitArray).get i) ((⟨3, [3]⟩ : BitArray).get i) ∧
        rn.get i = ((⟨3, [5]⟩ : BitArray).get i && !(⟨3, [3]⟩ : BitArray).get i) :=
  (c2_bitwise_algebra ⟨3, [5]⟩ ⟨3, [3]⟩ (by decide)).2.1 rfl

/-- C3: `Rotate n` on a valid array of size `s` first reduces `n` with the
sign-preserving (truncated) remainder `r = n.tmod s`, then cyclically permutes
the bits: the new bit at index `(i + r) mod s` (mathematical modulus) equals
the old bit at index `i` for every `i < s`; no bit is lost, so `Count` is
unchanged. -/
theorem c3_rotate_cyclic (ba : BitArray) (n : Int) (hv : Valid ba) (hp : PadOk ba) :
    ∃ res, ba.Rotate n = .ok res ∧ res.size = ba.size ∧
      (∀ i, i < ba.size →
        res.get ((((i : Int) + n.tmod ba.size).emod ba.size).toNat) = ba.get i) ∧
      res.Count = ba.Count := by
  obtain ⟨res, hok, hvr, hpr, hsz, hget, hcnt⟩ := Rotate_ok_full ba n hv hp
  have hs0 : 0 < ba.size := hv.1
  refine ⟨res, hok, hsz, ?_, hcnt⟩
  intro i hi
  generalize n.tmod (ba.size : Int) = r at hget ⊢
  have hjpos : 0 ≤ ((i : Int) + r).emod ba.size := Int.emod_nonneg _ (by omega)
  have hjlt : ((i : Int) + r).emod ba.size < (ba.size : Int) :=
    Int.emod_lt_of_pos _ (by omega)
  have hjnat : (((((i : Int) + r).emod ba.size).toNat : Int))
      = ((i : Int) + r).emod ba.size := by
    omega
  rw [hget ((((i : Int) + r).emod ba.size).toNat) (by omega), hjnat]
  have e1 : (((i : Int) + r).emod ba.size - r).emod ba.size
      = ((((i : Int) + r).emod ba.size).emod ba.size - r.emod ba.size).emod ba.size :=
    Int.sub_emod _ _ _
  have e2 : (((i : Int) + r).emod ba.size).emod ba.size
      = ((i : Int) + r).emod ba.size :=
    Int.emod_emod_of_dvd _ dvd_rfl
  have e3 : ((i : Int) + r - r).emod ba.size
      = (((i : Int) + r).emod ba.size - r.emod ba.size).emod ba.size :=
    Int.sub_emod _ _ _
  have key : (((i : Int) + r).emod ba.size - r).emod ba.size = (i : Int) := by
    rw [e1, e2, ← e3, add_sub_cancel_right]
    exact emod_small _ _ (by omega) (by omega)
  rw [key]
  simp

theorem c3_rotate_cyclic_witness :
    ∃ res, BitArray.Rotate ⟨3, [4]⟩ (-4) = .ok res ∧
      res.size = (⟨3, [4]⟩ : BitArray).size ∧
      (∀ i, i < (⟨3, [4]⟩ : BitArray).size →
        res.get ((((i : Int) + (-4 : Int).tmod (⟨3, [4]⟩ : BitArray).size).emod
          (⟨3, [4]⟩ : BitArray).size).toNat) = (⟨3, [4]⟩ : BitArray).get i) ∧
      res.Count = (⟨3, [4]⟩ : BitArray).Count :=
  c3_rotate_cyclic ⟨3, [4]⟩ (-4) (by decide) (by decide)

/-- C4: after `Shift n` on a valid array of size `s`: when `|n| >= s` every
bit is 0; when `0 < n < s` the new bit `j` is 0 for `j < n` and the old bit
`j - n` otherwise; when `-s < n < 0` the new bit `j` is the old bit `j + |n|`
when that index is below `s` and 0 otherwise; `n = 0` leaves the array
unchanged; and `Count` never increases. -/
theorem c4_shift (ba : BitArray) (n : Int) (hv : Valid ba) (hp : PadOk ba) :
    ((0 < n ∧ (ba.size : Int) ≤ n) ∨ (n < 0 ∧ (ba.size : Int) ≤ -n) →
      ∀ j, (ba.Shift n).get j = false) ∧
    (0 < n → n < (ba.size : Int) → ∀ j, j < ba.size →
      (ba.Shift n).get j = if j < n.toNat then false else ba.get (j - n.toNat)) ∧
    (n < 0 → -n < (ba.size : Int) → ∀ j, j < ba.size →
      (ba.Shift n).get j =
        if j + (-n).toNat < ba.size then ba.get (j + (-n).toNat) else false) ∧
    (n = 0 → ba.Shift n = ba) ∧
    (ba.Shift n).Count ≤ ba.Count := by
  refine ⟨?_, ?_, ?_, ?_, shift_count_le ba n hv hp⟩
  · intro hbig j
    exact shift_get_big ba n hbig j
  · intro h1 h2 j hj
    rw [shift_get_pos ba n hv h1 h2 j]
    by_cases hj1 : j < n.toNat
    · rw [if_pos hj1, if_pos hj1]
    · rw [if_neg hj1, if_neg hj1, if_pos hj]
  · intro h1 h2 j hj
    rw [shift_get_neg ba n hv h1 h2 j]
    by_cases hj1 : j + (-n).toNat < ba.size
    · rw [if_pos hj1, if_pos hj1]
    · rw [if_neg hj1, if_neg hj1, if_pos hj]
  · intro h0
    subst h0
    exact shift_zero ba

theorem c4_shift_witness :
    ((0 : Int) < 3 → (3 : Int) < ((⟨10, [129, 2]⟩ : BitArray).size : Int) →
      ∀ j, j < (⟨10, [129, 2]⟩ : BitArray).size →
        (BitArray.Shift ⟨10, [129, 2]⟩ 3).get j =
          if j < (3 : Int).toNat then false
          else (⟨10, [129, 2]⟩ : BitArray).get (j - (3 : Int).toNat)) ∧
    (BitArray.Shift ⟨10, [129, 2]⟩ 3).Count ≤ (⟨10, [129, 2]⟩ : BitArray).Count :=
  ⟨(c4_shift ⟨10, [129, 2]⟩ 3 (by decide) (by decide)).2.1,
   (c4_shift ⟨10, [129, 2]⟩ 3 (by decide) (by decide)).2.2.2.2⟩

/-- C5: for every valid BitArray `v`, `Parse` applied to `v.String` succeeds
and returns `v` itself; the string has exactly `size` characters, and the
character at position `k` (counting from the left) shows bit `size - 1 - k`,
so the most significant bit comes first and the rightmost character is
bit 0. -/
theorem c5_string_roundtrip (v : BitArray) (hv : Valid v) (hp : PadOk v) :
    Parse v.String = .ok v ∧ v.String.length = v.size ∧
    ∀ k, k < v.size →
      v.String.getD k '0' = if v.get (v.size - 1 - k) then '1' else '0' := by
  have hs := string_eq v hv hp
  have h0 : 0 < v.size := hv.1
  refine ⟨parse_string v hv hp, by rw [hs]; simp, ?_⟩
  intro k hk
  rw [hs, List.getD_eq_getElem?_getD, List.getElem?_map,
    List.getElem?_reverse (by simpa using hk), List.length_range,
    List.getElem?_range (by omega)]
  rfl

theorem c5_string_roundtrip_witness :
    Parse (BitArray.String ⟨10, [129, 2]⟩) = .ok ⟨10, [129, 2]⟩ ∧
    (BitArray.String ⟨10, [129, 2]⟩).length = (⟨10, [129, 2]⟩ : BitArray).size ∧
    ∀ k, k < (⟨10, [129, 2]⟩ : BitArray).size →
      (BitArray.String ⟨10, [129, 2]⟩).getD k '0' =
        if (⟨10, [129, 2]⟩ : BitArray).get ((⟨10, [129, 2]⟩ : BitArray).size - 1 - k)
        then '1' else '0' :=
  c5_string_roundtrip ⟨10, [129, 2]⟩ (by decide) (by decide)

/-- C6: decoding the bytes produced by `MarshalBinary` yields the original
BitArray back (same size and identical storage bytes), and `UnmarshalBinary`
fails with a decode error on every strict prefix of that encoding. -/
theorem c6_binary_roundtrip (ba : BitArray) (k : Nat)
    (hk : k < (MarshalBinary ba).length) :
    UnmarshalBinary (MarshalBinary ba) = .ok ba ∧
    UnmarshalBinary ((MarshalBinary ba).take k) = .error .truncated :=
  ⟨unmarshal_marshal ba, unmarshal_truncation ba k hk⟩

theorem c6_binary_roundtrip_witness :
    UnmarshalBinary (MarshalBinary ⟨3, [5]⟩) = .ok ⟨3, [5]⟩ ∧
    UnmarshalBinary ((MarshalBinary ⟨3, [5]⟩).take 2) = .error .truncated :=
  c6_binary_roundtrip ⟨3, [5]⟩ 2 (by decide)

/-- C7: `Slice ba st nd` fails with the index-out-of-range panic when `st` or
`nd - 1` lies outside `[0, size)`; when both are valid indices and `st < nd`
it succeeds with a fresh valid array of size `nd - st` whose bit `k` is the
source's bit `st + k`. -/
theorem c7_slice (ba : BitArray) (st nd : Int) :
    ((st < 0 ∨ (ba.size : Int) ≤ st) ∨ (nd - 1 < 0 ∨ (ba.size : Int) ≤ nd - 1) →
      Slice ba st nd = .error .indexOOR) ∧
    (¬(st < 0 ∨ (ba.size : Int) ≤ st) → ¬(nd - 1 < 0 ∨ (ba.size : Int) ≤ nd - 1) →
      st < nd →
      ∃ r, Slice ba st nd = .ok r ∧ Valid r ∧ r.size = (nd - st).toNat ∧
        ∀ k, k < r.size → r.get k = ba.get (st.toNat + k)) := by
  constructor
  · intro hbad
    by_cases h1 : st < 0 ∨ (ba.size : Int) ≤ st
    · exact slice_err_idx1 ba st nd h1
    · exact slice_err_idx2 ba st nd h1 (hbad.resolve_left h1)
  · intro h1 h2 h3
    have hok := slice_ok_eq ba st nd h1 h2 (by omega)
    obtain ⟨hvr, hpr, hsz, hbnd, hget⟩ := Slice_ok_props ba st nd _ hok
    exact ⟨_, hok, hvr, hsz, hget⟩

theorem c7_slice_witness :
    ((((2 : Int) < 0 ∨ ((⟨10, [129, 2]⟩ : BitArray).size : Int) ≤ 2) ∨
        ((5 : Int) - 1 < 0 ∨ ((⟨10, [129, 2]⟩ : BitArray).size : Int) ≤ 5 - 1)) →
      Slice ⟨10, [129, 2]⟩ 2 5 = .error .indexOOR) ∧
    (¬((2 : Int) < 0 ∨ ((⟨10, [129, 2]⟩ : BitArray).size : Int) ≤ 2) →
      ¬((5 : Int) - 1 < 0 ∨ ((⟨10, [129, 2]⟩ : BitArray).size : Int) ≤ 5 - 1) →
      (2 : Int) < 5 →
      ∃ r, Slice ⟨10, [129, 2]⟩ 2 5 = .ok r ∧ Valid r ∧
        r.size = ((5 : Int) - 2).toNat ∧
        ∀ k, k < r.size →
          r.get k = (⟨10, [129, 2]⟩ : BitArray).get ((2 : Int).toNat + k)) :=
  c7_slice ⟨10, [129, 2]⟩ 2 5

/-- C8: `Concat ba1 ba2` succeeds on valid inputs with a new array of size
`ba1.size + ba2.size` whose low `ba2.size` bits are `ba2`'s bits and whose
remaining bits are `ba1`'s, and its string representation is the
concatenation of the two string representations. -/
theorem c8_concat (ba1 ba2 : BitArray) (hv1 : Valid ba1) (hv2 : Valid ba2)
    (hp1 : PadOk ba1) (hp2 : PadOk ba2) :
    ∃ r, Concat ba1 ba2 = .ok r ∧ r.size = ba1.size + ba2.size ∧
      (∀ k, k < ba2.size → r.get k = ba2.get k) ∧
      (∀ k, ba2.size ≤ k → k < ba1.size + ba2.size →
        r.get k = ba1.get (k - ba2.size)) ∧
      BitArray.String r = BitArray.String ba1 ++ BitArray.String ba2 := by
  obtain ⟨r, hC⟩ := Concat_exists ba1 ba2 hv1 hv2
  obtain ⟨hvr, hpr, hsz, hlow, hhigh⟩ := Concat_ok_props ba1 ba2 r hv1 hv2 hC
  refine ⟨r, hC, hsz, hlow, ?_, ?_⟩
  · intro k hk1 hk2
    rw [hhigh k hk1, if_pos hk2]
  · rw [string_eq r hvr hpr, string_eq ba1 hv1 hp1, string_eq ba2 hv2 hp2, hsz,
      Nat.add_comm ba1.size ba2.size, List.range_add, List.reverse_append,
      List.map_append]
    congr 1
    · rw [← List.map_reverse, List.map_map]
      refine List.map_congr_left ?_
      intro j hj
      have hjlt : j < ba1.size := by
        rw [List.mem_reverse, List.mem_range] at hj
        exact hj
      show (if r.get (ba2.size + j) then '1' else '0')
          = (if ba1.get j then '1' else '0')
      rw [hhigh (ba2.size + j) (Nat.le_add_right ba2.size j),
        if_pos (show ba2.size + j < ba1.size + ba2.size by omega),
        Nat.add_sub_cancel_left]
    · refine List.map_congr_left ?_
      intro j hj
      have hjlt : j < ba2.size := by
        rw [List.mem_reverse, List.mem_range] at hj
        exact hj
      show (if r.get j then '1' else '0') = (if ba2.get j then '1' else '0')
      rw [hlow j hjlt]

theorem c8_concat_witness :
    ∃ r, Concat ⟨4, [5]⟩ ⟨3, [5]⟩ = .ok r ∧
      r.size = (⟨4, [5]⟩ : BitArray).size + (⟨3, [5]⟩ : BitArray).size ∧
      (∀ k, k < (⟨3, [5]⟩ : BitArray).size → r.get k = (⟨3, [5]⟩ : BitArray).get k) ∧
      (∀ k, (⟨3, [5]⟩ : BitArray).size ≤ k →
        k < (⟨4, [5]⟩ : BitArray).size + (⟨3, [5]⟩ : BitArray).size →
        r.get k = (⟨4, [5]⟩ : BitArray).get (k - (⟨3, [5]⟩ : BitArray).size)) ∧
      BitArray.String r = BitArray.String ⟨4, [5]⟩ ++ BitArray.String ⟨3, [5]⟩ :=
  c8_concat ⟨4, [5]⟩ ⟨3, [5]⟩ (by decide) (by decide) (by decide) (by decide)

/-- C9: `Parse` applied to a string of only space characters (the empty
string included) does not return the recoverable unknown-character error: it
reaches `New` with size 0, which fails with the invalid-size panic. -/
theorem c9_parse_spaces (s : List Char) (h : ∀ c ∈ s, c = Char.ofNat 32) :
    Parse s = .error .invalidSize :=
  parse_space s h

theorem c9_parse_spaces_witness :
    Parse [Char.ofNat 32, Char.ofNat 32] = .error .invalidSize :=
  c9_parse_spaces [Char.ofNat 32, Char.ofNat 32] (by decide)

/-- C10: when `st` and `nd - 1` both pass the index checks but `nd <= st`,
`Slice` does not fail with the index-out-of-range panic: it reaches
`New (nd - st)` with a non-positive size and fails with the invalid-size
panic. -/
theorem c10_slice_empty_range (ba : BitArray) (st nd : Int)
    (h1 : ¬(st < 0 ∨ (ba.size : Int) ≤ st))
    (h2 : ¬(nd - 1 < 0 ∨ (ba.size : Int) ≤ nd - 1))
    (h3 : nd ≤ st) :
    Slice ba st nd = .error .invalidSize :=
  slice_err_size ba st nd h1 h2 (by omega)

theorem c10_slice_empty_range_witness :
    Slice ⟨10, [129, 2]⟩ 5 3 = .error .invalidSize :=
  c10_slice_empty_range ⟨10, [129, 2]⟩ 5 3 (by decide) (by decide) (by decide)
